import Mathlib

/-!
Shallow embedding of the multi-round tool-calling orchestration core of the
smart-agriculture chat repository (`app.py`, `run.py`, `tools/_registry.py`,
`tools.py`), together with theorems settling the specification claims.

Conventions of the embedding:
* Python JSON values are the inductive `Json`; `json.dumps(..., ensure_ascii=False)`
  is `Json.dumps`.
* Python dictionaries (which preserve insertion order) are insertion-ordered
  association lists with `alLookup` / `alInsert`.
* `json.loads`, the registered tool handlers, the display-name table and the
  streaming LLM client are external collaborators; they are parameters of the
  orchestration functions, bundled in `Env`.
* Exceptions are explicit: a fallible external call returns `Except String`,
  and an exception escaping a Python loop is an explicit outcome constructor.
-/

namespace Hoster

/-- JSON values as handled by Python's `json` module (numbers restricted to
integers, which covers every literal the embedded code manipulates). -/
inductive Json where
  | null
  | bool (b : Bool)
  | num (n : Int)
  | str (s : String)
  | arr (elems : List Json)
  | obj (fields : List (String × Json))

/-- Escaping of one character inside a JSON string literal (quote, backslash,
newline; other characters pass through unescaped, matching `ensure_ascii=False`
for the strings this program produces). -/
def escapeChar (c : Char) : String :=
  if c = '"' then "\\\"" else if c = '\\' then "\\\\"
  else if c = '\n' then "\\n" else String.singleton c

def escapeStr (s : String) : String :=
  String.join (s.data.map escapeChar)

mutual

/-- `json.dumps(v, ensure_ascii=False)` with the default separators. -/
def Json.dumps : Json → String
  | .null => "null"
  | .bool b => if b then "true" else "false"
  | .num n => toString n
  | .str s => "\"" ++ escapeStr s ++ "\""
  | .arr elems => "[" ++ String.intercalate ", " (Json.dumpsList elems) ++ "]"
  | .obj fields => "\x7b" ++ String.intercalate ", " (Json.dumpsFields fields) ++ "\x7d"

def Json.dumpsList : List Json → List String
  | [] => []
  | j :: rest => Json.dumps j :: Json.dumpsList rest

def Json.dumpsFields : List (String × Json) → List String
  | [] => []
  | (k, v) :: rest => ("\"" ++ escapeStr k ++ "\": " ++ Json.dumps v) :: Json.dumpsFields rest

end

/-- Python truthiness of an optional string (`None` and `""` are falsy). -/
def truthy : Option String → Bool
  | none => false
  | some s => !s.isEmpty

/-- Python truthiness of an optional list (`None` and `[]` are falsy). -/
def truthyList {α : Type} : Option (List α) → Bool
  | none => false
  | some l => !l.isEmpty

/-- Python `bool(...)` coercion of a JSON value. -/
def pyBool : Json → Bool
  | .null => false
  | .bool b => b
  | .num n => n != 0
  | .str s => !s.isEmpty
  | .arr l => !l.isEmpty
  | .obj f => !f.isEmpty

/-- Rendering of an optional string where Python would stringify `None`
(f-strings, dict keys used as plain strings). -/
def pyStr : Option String → String
  | none => "None"
  | some s => s

/-- Python `dict.get(key)` on an insertion-ordered association list. -/
def alLookup {κ α : Type} [DecidableEq κ] : List (κ × α) → κ → Option α
  | [], _ => none
  | (k, v) :: rest, key => if k = key then some v else alLookup rest key

/-- Python `d[key] = val`: replace in place if the key is present, otherwise
append at the end (insertion order). -/
def alInsert {κ α : Type} [DecidableEq κ] : List (κ × α) → κ → α → List (κ × α)
  | [], key, val => [(key, val)]
  | (k, v) :: rest, key, val =>
    if k = key then (k, val) :: rest else (k, v) :: alInsert rest key val

/-- Field access on a JSON object (`data["key"]`), `none` on non-objects. -/
def jget : Json → String → Option Json
  | .obj fields, key => alLookup fields key
  | _, _ => none

/-- `delta.tool_calls[i].function` fragments (`name` / `arguments` each optional). -/
structure FunctionChunk where
  name : Option String
  arguments : Option String
deriving DecidableEq

/-- One streamed tool-call fragment: positional `index`, optional `id`,
optional `function` part. -/
structure ToolCallChunk where
  index : Nat
  id : Option String
  function : Option FunctionChunk
deriving DecidableEq

/-- One streamed delta: optional `reasoning_content` (via `getattr` in the
source), optional `content`, optional list of tool-call fragments. -/
structure Delta where
  reasoning_content : Option String
  content : Option String
  tool_calls : Option (List ToolCallChunk)
deriving DecidableEq

structure Choice where
  delta : Option Delta
deriving DecidableEq

structure Chunk where
  choices : List Choice
deriving DecidableEq

/-- One entry of `tool_calls_dict`: `{"id": None, "name": None, "arguments": ""}`. -/
structure ToolEntry where
  id : Option String
  name : Option String
  arguments : String
deriving DecidableEq

def freshEntry : ToolEntry := { id := none, name := none, arguments := "" }

/-- The three conditional field updates applied to `tool_calls_dict[idx]` for one
fragment (`app.py` lines 270-275 and identically `run.py` lines 178-183):
a truthy `id` overwrites, a truthy `function.name` overwrites, truthy
`function.arguments` is appended. -/
def applyToolChunk (e : ToolEntry) (tc : ToolCallChunk) : ToolEntry :=
  let e1 := if truthy tc.id then { e with id := tc.id } else e
  let e2 := match tc.function with
    | some f => if truthy f.name then { e1 with name := f.name } else e1
    | none => e1
  match tc.function with
  | some f =>
    if truthy f.arguments then
      { e2 with arguments := e2.arguments ++ f.arguments.getD "" }
    else e2
  | none => e2

/-- Processing one fragment against `tool_calls_dict`: create the fresh entry if
the index is new, then apply the field updates. -/
def dictStep (d : List (Nat × ToolEntry)) (tc : ToolCallChunk) : List (Nat × ToolEntry) :=
  alInsert d tc.index (applyToolChunk ((alLookup d tc.index).getD freshEntry) tc)

/-- A server-sent event as the pair (event kind, data payload); the textual
`event: ...\ndata: ...` framing of `sse_event` is transport-level serialization
of exactly this pair. -/
structure SSEvent where
  event : String
  data : Json

def sse_event (event : String) (data : Json) : SSEvent := ⟨event, data⟩

/-- Accumulation state of the server loop: `full_content`, `full_reasoning`,
`tool_calls_dict`. -/
structure AccState where
  full_content : String
  full_reasoning : String
  tool_calls_dict : List (Nat × ToolEntry)

def AccState.init : AccState := ⟨"", "", []⟩

/-- One iteration of the server's `for chunk in stream` loop (`app.py` 242-275):
skip chunks without choices or delta; append truthy reasoning and content pieces
(emitting the delta events); fold the tool-call fragments into the dict. -/
def appProcessChunk (st : AccState) (ch : Chunk) : AccState × List SSEvent :=
  match ch.choices with
  | [] => (st, [])
  | choice :: _ =>
    match choice.delta with
    | none => (st, [])
    | some delta =>
      let p1 : AccState × List SSEvent :=
        if truthy delta.reasoning_content then
          ({ st with full_reasoning := st.full_reasoning ++ delta.reasoning_content.getD "" },
           [sse_event "reasoning_delta" (Json.obj [("content", Json.str (delta.reasoning_content.getD ""))])])
        else (st, [])
      let p2 : AccState × List SSEvent :=
        if truthy delta.content then
          ({ p1.1 with full_content := p1.1.full_content ++ delta.content.getD "" },
           p1.2 ++ [sse_event "text_delta" (Json.obj [("content", Json.str (delta.content.getD ""))])])
        else p1
      let st3 :=
        if truthyList delta.tool_calls then
          { p2.1 with tool_calls_dict := (delta.tool_calls.getD []).foldl dictStep p2.1.tool_calls_dict }
        else p2.1
      (st3, p2.2)

/-- The whole stream-consumption loop of the server surface: fold
`appProcessChunk`, collecting the emitted delta events in order. -/
def appAccumulate (chunks : List Chunk) : AccState × List SSEvent :=
  chunks.foldl (fun acc ch =>
    let r := appProcessChunk acc.1 ch
    (r.1, acc.2 ++ r.2)) (AccState.init, [])

/-- A finalized tool call as stored in the assistant message
(`{"id": ..., "type": "function", "function": {"name": ..., "arguments": ...}}`). -/
structure ToolCall where
  id : Option String
  name : Option String
  arguments : String
deriving DecidableEq

def ToolEntry.toCall (e : ToolEntry) : ToolCall := ⟨e.id, e.name, e.arguments⟩

/-- Insertion of one key-value pair into a list sorted by ascending key. -/
def insertByKey (p : Nat × ToolEntry) : List (Nat × ToolEntry) → List (Nat × ToolEntry)
  | [] => [p]
  | q :: rest => if p.1 ≤ q.1 then p :: q :: rest else q :: insertByKey p rest

/-- `sorted(tool_calls_dict.items())`: sort the entries by ascending key
(keys are distinct, so lexicographic tuple comparison is key comparison). -/
def sortByKey (l : List (Nat × ToolEntry)) : List (Nat × ToolEntry) :=
  l.foldr insertByKey []

/-- Finalization of the server surface (`app.py` 285-295): the finalized list is
the dict sorted by key, each entry projected to a `ToolCall`. -/
def appToolCallsList (d : List (Nat × ToolEntry)) : List ToolCall :=
  (sortByKey d).map (fun p => p.2.toCall)

def insertNat (k : Nat) : List Nat → List Nat
  | [] => [k]
  | q :: rest => if k ≤ q then k :: q :: rest else q :: insertNat k rest

/-- `sorted(keys)` for natural-number keys. -/
def sortNat (l : List Nat) : List Nat := l.foldr insertNat []

/-- Finalization of the script surface (`run.py` 189-200): empty list when the
dict is falsy, otherwise iterate `sorted(tool_calls_dict.keys())` and look each
key up (the lookup always succeeds for a key of the dict; `freshEntry` is an
unreachable default). -/
def runToolCallsList (d : List (Nat × ToolEntry)) : List ToolCall :=
  if d.isEmpty then []
  else (sortNat (d.map Prod.fst)).map (fun idx => ((alLookup d idx).getD freshEntry).toCall)

/-- A conversation message. The `tool_calls` key of an assistant message is
present exactly when the list is nonempty, so an absent key is modelled as `[]`;
`reasoning_content` is present exactly when the option is `some`. -/
inductive Message where
  | system (content : String)
  | user (content : String)
  | assistant (content : Option String) (tool_calls : List ToolCall) (reasoning_content : Option String)
  | tool (tool_call_id : Option String) (content : String)
deriving DecidableEq

/-- A server-side session: transcript, tool-call-id → tool-name map, and the
reasoning-mode settings. -/
structure Session where
  msgs : List Message
  tool_names : List (Option String × String)
  reasoning : Bool
  reasoning_effort : String
deriving DecidableEq

/-- An external tool handler, modelling `fn(**args)` applied to the parsed
argument value: it either returns a JSON-serializable result or raises an
exception carrying a message (Python's `TypeError` for a non-mapping argument
splat is one such exception). -/
def Handler : Type := Json → Except String Json

/-- One round's response from the streaming LLM client: either
`client.chat.completions.create` itself raises (`failure`), or it returns a
stream delivering `chunks`; `streamError = some e` means iterating the stream
raised exception `e` after those chunks were delivered. -/
inductive LLMResult where
  | failure (message : String)
  | stream (chunks : List Chunk) (streamError : Option String)

/-- External collaborators of the orchestration loop: `json.loads`, the
registered handler table, the display-name table, and the LLM client (a
function of the transcript sent with the request; mode parameters such as
`reasoning_effort` are absorbed into it). -/
structure Env where
  parse : String → Except String Json
  fns : List (String × Handler)
  displayNames : List (String × String)
  llm : List Message → LLMResult

/-- `ToolRegistry.call` (`tools/_registry.py` 79-88), identical in logic to
`call_tool` of `tools.py` 371-378, parameterized by the registered entries:
an unknown name yields the `未知工具` ("unknown tool") error payload, a raising
handler yields `{error: message}`, and the result is always a JSON string. -/
def call_tool (fns : List (String × Handler)) (name : String) (args : Json) : String :=
  match alLookup fns name with
  | none => Json.dumps (Json.obj [("error", Json.str ("未知工具: " ++ name))])
  | some fn =>
    match fn args with
    | .ok result => Json.dumps result
    | .error e => Json.dumps (Json.obj [("error", Json.str e)])

def optJson : Option String → Json
  | none => Json.null
  | some s => Json.str s

/-- The server's tool-execution loop (`app.py` 315-345). For each finalized
call: `json.loads` the argument text (an uncaught exception here propagates,
returning `some e` with no event emitted and no state change for this and the
remaining calls), emit `tool_start`, dispatch, emit `tool_done`, record the
id → name mapping and append the tool-result message. -/
def appExecTools (env : Env) : List ToolCall → Session → List SSEvent × Session × Option String
  | [], s => ([], s, none)
  | tc :: rest, s =>
    let fn_name := pyStr tc.name
    match env.parse tc.arguments with
    | .error e => ([], s, some e)
    | .ok fn_args =>
      let display := (alLookup env.displayNames fn_name).getD fn_name
      let startEv := sse_event "tool_start" (Json.obj
        [("id", optJson tc.id), ("name", Json.str fn_name),
         ("display_name", Json.str display), ("args", fn_args)])
      let result := call_tool env.fns fn_name fn_args
      let result_obj := match env.parse result with
        | .ok o => o
        | .error _ => Json.str result
      let doneEv := sse_event "tool_done" (Json.obj
        [("id", optJson tc.id), ("name", Json.str fn_name),
         ("display_name", Json.str display), ("result", result_obj)])
      let s1 : Session := { s with
        tool_names := alInsert s.tool_names tc.id fn_name,
        msgs := s.msgs ++ [Message.tool tc.id result] }
      let r := appExecTools env rest s1
      (startEv :: doneEv :: r.1, r.2)

/-- The assistant message committed at the end of a server round
(`app.py` 298-307): `full_content or None`, the finalized call list, and the
reasoning text when nonempty. -/
def assistantMsgOf (acc : AccState) (calls : List ToolCall) : Message :=
  Message.assistant (if acc.full_content.isEmpty then none else some acc.full_content) calls
    (if acc.full_reasoning.isEmpty then none else some acc.full_reasoning)

/-- How one server round ended: `errorReturn` = request establishment failed
(error event + `return`); `streamRaised` / `toolRaised` = an exception escaped
the generator; `finishedNoTools` = `break`; `continued` = loop to next round. -/
inductive RoundResult where
  | errorReturn (e : String)
  | streamRaised (e : String)
  | toolRaised (e : String)
  | finishedNoTools
  | continued
deriving DecidableEq

/-- One iteration of the server's `for _round in range(10)` body
(`app.py` 229-348), given the LLM client's response for this round. -/
def appRound (env : Env) (res : LLMResult) (s : Session) : List SSEvent × Session × RoundResult :=
  match res with
  | .failure e => ([sse_event "error" (Json.obj [("message", Json.str e)])], s, .errorReturn e)
  | .stream chunks strErr =>
    let acc := (appAccumulate chunks).1
    let deltaEvs := (appAccumulate chunks).2
    match strErr with
    | some e => (deltaEvs, s, .streamRaised e)
    | none =>
      let evs2 := deltaEvs
        ++ (if acc.full_reasoning.isEmpty then []
            else [sse_event "reasoning_done" (Json.obj [("content", Json.str acc.full_reasoning)])])
        ++ (if acc.full_content.isEmpty then []
            else [sse_event "text_done" (Json.obj [("content", Json.str acc.full_content)])])
      let calls := appToolCallsList acc.tool_calls_dict
      let s1 : Session := { s with msgs := s.msgs ++ [assistantMsgOf acc calls] }
      if calls.isEmpty then
        (evs2 ++ [sse_event "round_done" (Json.obj [])], s1, .finishedNoTools)
      else
        let r := appExecTools env calls s1
        match r.2.2 with
        | some e => (evs2 ++ r.1, r.2.1, .toolRaised e)
        | none => (evs2 ++ r.1 ++ [sse_event "round_done" (Json.obj [])], r.2.1, .continued)

/-- How the `for _round in range(10)` loop was left. -/
inductive LoopExit where
  | broke
  | returned
  | raised (e : String)
deriving DecidableEq

structure RoundsResult where
  events : List SSEvent
  session : Session
  exitKind : LoopExit
  rounds : Nat

/-- The server's round loop with the given fuel (`range(10)` instantiates it
with 10); `rounds` counts the iterations actually executed. -/
def appRounds (env : Env) : Nat → Session → RoundsResult
  | 0, s => ⟨[], s, .broke, 0⟩
  | Nat.succ n, s =>
    let r := appRound env (env.llm s.msgs) s
    match r.2.2 with
    | .continued =>
      let rest := appRounds env n r.2.1
      ⟨r.1 ++ rest.events, rest.session, rest.exitKind, rest.rounds + 1⟩
    | .finishedNoTools => ⟨r.1, r.2.1, .broke, 1⟩
    | .errorReturn _ => ⟨r.1, r.2.1, .returned, 1⟩
    | .streamRaised e => ⟨r.1, r.2.1, .raised e, 1⟩
    | .toolRaised e => ⟨r.1, r.2.1, .raised e, 1⟩

/-- Final fate of one turn of `generate()`: the generator either finished
(normally or via the early `return` after an error event) or an exception
escaped it. -/
inductive Outcome where
  | finished
  | raised (e : String)
deriving DecidableEq

structure TurnResult where
  events : List SSEvent
  session : Session
  outcome : Outcome
  rounds : Nat

/-- The whole `generate()` turn (`app.py` 226-352): run up to ten rounds; the
`done` event is emitted only when the loop is left by `break` or exhaustion,
not by the early `return` or by an escaping exception. -/
def appGenerate (env : Env) (s : Session) : TurnResult :=
  let reasoning_on := s.reasoning
  let r := appRounds env 10 s
  match r.exitKind with
  | .broke => ⟨r.events ++ [sse_event "done" (Json.obj [("reasoning_enabled", Json.bool reasoning_on)])],
               r.session, .finished, r.rounds⟩
  | .returned => ⟨r.events, r.session, .finished, r.rounds⟩
  | .raised e => ⟨r.events, r.session, .raised e, r.rounds⟩

/-- The script surface's session state (`st.session_state`): transcript and
tool-name map. -/
structure RunSession where
  msgs : List Message
  tool_names : List (Option String × String)
deriving DecidableEq

/-- Accumulation state of the script loop (`run.py` has no reasoning buffer). -/
structure RunAccState where
  full_content : String
  tool_calls_dict : List (Nat × ToolEntry)

def RunAccState.init : RunAccState := ⟨"", []⟩

/-- One iteration of the script's `for chunk in stream` loop (`run.py` 153-183);
UI placeholder updates are display-only and not part of the state. -/
def runProcessChunk (st : RunAccState) (ch : Chunk) : RunAccState :=
  match ch.choices with
  | [] => st
  | choice :: _ =>
    match choice.delta with
    | none => st
    | some delta =>
      let st1 :=
        if truthy delta.content then
          { st with full_content := st.full_content ++ delta.content.getD "" }
        else st
      if truthyList delta.tool_calls then
        { st1 with tool_calls_dict := (delta.tool_calls.getD []).foldl dictStep st1.tool_calls_dict }
      else st1

def runAccumulate (chunks : List Chunk) : RunAccState :=
  chunks.foldl runProcessChunk RunAccState.init

/-- The script's tool-execution loop (`run.py` 227-254). Beyond `json.loads`
(uncaught, like the server), the script builds
`args_hint = "、".join(f"{k}={v}" for k, v in fn_args.items())`, which raises
`AttributeError` when the parsed arguments are not a mapping — an exception the
server's loop does not have. -/
def runExecTools (env : Env) : List ToolCall → RunSession → RunSession × Option String
  | [], s => (s, none)
  | tc :: rest, s =>
    let fn_name := pyStr tc.name
    match env.parse tc.arguments with
    | .error e => (s, some e)
    | .ok fn_args =>
      match fn_args with
      | .obj _ =>
        let result := call_tool env.fns fn_name fn_args
        let s1 : RunSession := { s with
          tool_names := alInsert s.tool_names tc.id fn_name,
          msgs := s.msgs ++ [Message.tool tc.id result] }
        runExecTools env rest s1
      | _ => (s, some "AttributeError: object has no attribute items")

/-- How one script round ended: `stopped` = `st.stop()` after a failed request;
`raised` = an exception escaped the script; otherwise as for the server. -/
inductive RunRoundResult where
  | stopped (e : String)
  | raised (e : String)
  | finishedNoTools
  | continued
deriving DecidableEq

/-- One iteration of the script's `for round_idx in range(10)` body
(`run.py` 134-262), given the LLM client's response for this round. -/
def runRound (env : Env) (res : LLMResult) (s : RunSession) : RunSession × RunRoundResult :=
  match res with
  | .failure e => (s, .stopped e)
  | .stream chunks strErr =>
    let acc := runAccumulate chunks
    match strErr with
    | some e => (s, .raised e)
    | none =>
      let calls := runToolCallsList acc.tool_calls_dict
      let s1 : RunSession := { s with
        msgs := s.msgs ++ [Message.assistant
          (if acc.full_content.isEmpty then none else some acc.full_content) calls none] }
      if calls.isEmpty then (s1, .finishedNoTools)
      else
        let r := runExecTools env calls s1
        match r.2 with
        | some e => (r.1, .raised e)
        | none => (r.1, .continued)

inductive RunExit where
  | broke
  | stopped
  | raised (e : String)
deriving DecidableEq

structure RunRoundsResult where
  session : RunSession
  exitKind : RunExit
  rounds : Nat

/-- The script's round loop with the given fuel. -/
def runRounds (env : Env) : Nat → RunSession → RunRoundsResult
  | 0, s => ⟨s, .broke, 0⟩
  | Nat.succ n, s =>
    let r := runRound env (env.llm s.msgs) s
    match r.2 with
    | .continued =>
      let rest := runRounds env n r.1
      ⟨rest.session, rest.exitKind, rest.rounds + 1⟩
    | .finishedNoTools => ⟨r.1, .broke, 1⟩
    | .stopped _ => ⟨r.1, .stopped, 1⟩
    | .raised e => ⟨r.1, .raised e, 1⟩

/-- One full multi-round turn of the script surface (`run.py` 132-262). -/
def runTurn (env : Env) (s : RunSession) : RunRoundsResult := runRounds env 10 s

/-- Request body of `POST /api/session/<sid>/reasoning`: each key optionally
present, carrying an arbitrary JSON value. -/
structure ReasoningBody where
  reasoning : Option Json
  reasoning_effort : Option Json

/-- An HTTP response of the endpoint: `jsonify(payload)` (status 200) or
`jsonify(payload), 400`. -/
inductive HttpResult where
  | ok (payload : Json)
  | badRequest (payload : Json)

/-- `effort in ("low", "medium", "high")`: only equal string values match. -/
def effortValid : Json → Bool
  | .str s => s == "low" || s == "medium" || s == "high"
  | _ => false

/-- The `set_reasoning` handler (`app.py` 170-192): the `reasoning` flag is
assigned before `reasoning_effort` is validated, so the flag update survives a
400 response. -/
def set_reasoning (session : Session) (body : ReasoningBody) : Session × HttpResult :=
  let s1 := match body.reasoning with
    | some v => { session with reasoning := pyBool v }
    | none => session
  match body.reasoning_effort with
  | some v =>
    match v with
    | .str s =>
      if s = "low" ∨ s = "medium" ∨ s = "high" then
        let s2 := { s1 with reasoning_effort := s }
        (s2, .ok (Json.obj [("reasoning", Json.bool s2.reasoning),
                            ("reasoning_effort", Json.str s2.reasoning_effort)]))
      else
        (s1, .badRequest (Json.obj [("error", Json.str "reasoning_effort 必须是 low/medium/high")]))
    | _ => (s1, .badRequest (Json.obj [("error", Json.str "reasoning_effort 必须是 low/medium/high")]))
  | none =>
    (s1, .ok (Json.obj [("reasoning", Json.bool s1.reasoning),
                        ("reasoning_effort", Json.str s1.reasoning_effort)]))

/-! ## Theorems -/

/-- C10: the `set_reasoning` endpoint is not atomic — a request carrying both a
`reasoning` value and an invalid `reasoning_effort` value gets a 400 error
response, yet the session's reasoning flag has already been assigned
`bool(body["reasoning"])` by the same request. -/
theorem c10_set_reasoning_not_atomic (session : Session) (v e : Json)
    (he : effortValid e = false) :
    (∃ p, (set_reasoning session ⟨some v, some e⟩).2 = HttpResult.badRequest p) ∧
    (set_reasoning session ⟨some v, some e⟩).1.reasoning = pyBool v := by
  cases e with
  | str s =>
    simp only [effortValid, Bool.or_eq_false_iff, beq_eq_false_iff_ne, ne_eq] at he
    refine ⟨⟨Json.obj [("error", Json.str "reasoning_effort 必须是 low/medium/high")], ?_⟩, ?_⟩ <;>
      simp [set_reasoning, he.1.1, he.1.2, he.2]
  | null =>
    exact ⟨⟨Json.obj [("error", Json.str "reasoning_effort 必须是 low/medium/high")], rfl⟩, rfl⟩
  | bool b =>
    exact ⟨⟨Json.obj [("error", Json.str "reasoning_effort 必须是 low/medium/high")], rfl⟩, rfl⟩
  | num n =>
    exact ⟨⟨Json.obj [("error", Json.str "reasoning_effort 必须是 low/medium/high")], rfl⟩, rfl⟩
  | arr l =>
    exact ⟨⟨Json.obj [("error", Json.str "reasoning_effort 必须是 low/medium/high")], rfl⟩, rfl⟩
  | obj f =>
    exact ⟨⟨Json.obj [("error", Json.str "reasoning_effort 必须是 low/medium/high")], rfl⟩, rfl⟩

/-- Witness for C10 at a concrete input: session with reasoning off, body
`{"reasoning": true, "reasoning_effort": "extreme"}` — the response is a 400
error, yet the flag has flipped to `true`. -/
theorem c10_witness :
    (∃ p, (set_reasoning ⟨[], [], false, "medium"⟩
      ⟨some (Json.bool true), some (Json.str "extreme")⟩).2 = HttpResult.badRequest p) ∧
    (set_reasoning ⟨[], [], false, "medium"⟩
      ⟨some (Json.bool true), some (Json.str "extreme")⟩).1.reasoning = true :=
  c10_set_reasoning_not_atomic ⟨[], [], false, "medium"⟩ (Json.bool true) (Json.str "extreme") rfl

/-- C6: tool dispatch never raises across the registry boundary — an
unregistered name yields the structured `未知工具` ("unknown tool") error
payload, and a handler that raises has its message captured as
`{error: message}`; being a total Lean function into `String`, `call_tool`
always hands the caller a JSON string. -/
theorem c6_dispatch_never_raises (fns : List (String × Handler)) (name : String) (args : Json) :
    (alLookup fns name = none →
      call_tool fns name args =
        Json.dumps (Json.obj [("error", Json.str ("未知工具: " ++ name))])) ∧
    (∀ fn e, alLookup fns name = some fn → fn args = Except.error e →
      call_tool fns name args = Json.dumps (Json.obj [("error", Json.str e)])) := by
  constructor
  · intro h
    simp [call_tool, h]
  · intro fn e hfn he
    simp [call_tool, hfn, he]

/-- A concrete handler that always raises, for the C6 witness. -/
def boomHandler : Handler := fun _ => Except.error "boom"

/-- Witness for C6 at concrete inputs: an unregistered name and a raising
handler both produce error payloads. -/
theorem c6_witness :
    call_tool [] "water_zone" Json.null =
      Json.dumps (Json.obj [("error", Json.str "未知工具: water_zone")]) ∧
    call_tool [("t", boomHandler)] "t" Json.null =
      Json.dumps (Json.obj [("error", Json.str "boom")]) :=
  ⟨(c6_dispatch_never_raises [] "water_zone" Json.null).1 rfl,
   (c6_dispatch_never_raises [("t", boomHandler)] "t" Json.null).2 boomHandler "boom" rfl rfl⟩

theorem appRounds_rounds_le (env : Env) (n : Nat) (s : Session) :
    (appRounds env n s).rounds ≤ n := by
  induction n generalizing s with
  | zero => simp [appRounds]
  | succ n ih =>
    rw [appRounds]
    split
    · exact Nat.succ_le_succ (ih _)
    all_goals exact Nat.succ_le_succ (Nat.zero_le n)

theorem runRounds_rounds_le (env : Env) (n : Nat) (s : RunSession) :
    (runRounds env n s).rounds ≤ n := by
  induction n generalizing s with
  | zero => simp [runRounds]
  | succ n ih =>
    rw [runRounds]
    split
    · exact Nat.succ_le_succ (ih _)
    all_goals exact Nat.succ_le_succ (Nat.zero_le n)

theorem appGenerate_rounds (env : Env) (s : Session) :
    (appGenerate env s).rounds = (appRounds env 10 s).rounds := by
  rw [appGenerate]
  split <;> rfl

/-- If every finalized call's argument text parses, the server's tool-execution
loop finishes without an exception. -/
theorem appExecTools_no_raise (env : Env) (calls : List ToolCall)
    (h : ∀ tc ∈ calls, ∃ j, env.parse tc.arguments = Except.ok j) :
    ∀ s, (appExecTools env calls s).2.2 = none := by
  induction calls with
  | nil => intro s; rfl
  | cons tc rest ih =>
    intro s
    obtain ⟨j, hj⟩ := h tc (List.mem_cons_self tc rest)
    rw [appExecTools, hj]
    exact ih (fun tc' htc' => h tc' (List.mem_cons_of_mem tc htc')) _

/-- C5: the round loop executes at most ten rounds on both surfaces, and under
an adversarial model — every response a clean stream whose finalized call list
is nonempty with parseable arguments — the server loop runs exactly ten rounds
and then halts. -/
theorem c5_round_limit (env : Env) (s : Session) (rs : RunSession) :
    (appGenerate env s).rounds ≤ 10 ∧ (runTurn env rs).rounds ≤ 10 ∧
    ((∀ msgs : List Message, ∃ chunks,
        env.llm msgs = LLMResult.stream chunks none ∧
        appToolCallsList (appAccumulate chunks).1.tool_calls_dict ≠ [] ∧
        ∀ tc ∈ appToolCallsList (appAccumulate chunks).1.tool_calls_dict,
          ∃ j, env.parse tc.arguments = Except.ok j) →
      (appGenerate env s).rounds = 10) := by
  refine ⟨by rw [appGenerate_rounds]; exact appRounds_rounds_le env 10 s,
          runRounds_rounds_le env 10 rs, ?_⟩
  intro hadv
  rw [appGenerate_rounds]
  have key : ∀ (n : Nat) (s' : Session), (appRounds env n s').rounds = n := by
    intro n
    induction n with
    | zero => intro s'; rfl
    | succ n ih =>
      intro s'
      obtain ⟨chunks, hllm, hne, hok⟩ := hadv s'.msgs
      have hround : (appRound env (env.llm s'.msgs) s').2.2 = RoundResult.continued := by
        rw [hllm, appRound]
        simp only []
        rw [if_neg (by simpa [List.isEmpty_iff] using hne)]
        rw [appExecTools_no_raise env _ hok]
      rw [appRounds]
      split
      · simp [ih]
      all_goals (rename_i heq; rw [hround] at heq; exact absurd heq (by simp))
  exact key 10 s

/-- A chunk whose single delta carries one complete tool-call fragment. -/
def advChunk : Chunk :=
  ⟨[⟨some ⟨none, none, some [⟨0, some "c", some ⟨some "t", some "[]"⟩⟩]⟩⟩]⟩

/-- An adversarial environment: every request streams `advChunk`, i.e. one
finalized tool call per round, with parseable arguments. -/
def advEnv : Env :=
  { parse := fun s => if s = "[]" then Except.ok (Json.arr []) else Except.error "bad",
    fns := [],
    displayNames := [],
    llm := fun _ => LLMResult.stream [advChunk] none }

def emptySession : Session := ⟨[], [], false, "medium"⟩

/-- Witness for C5: against the concrete adversarial model the turn executes
exactly ten rounds. -/
theorem c5_witness : (appGenerate advEnv emptySession).rounds = 10 :=
  (c5_round_limit advEnv emptySession ⟨[], []⟩).2.2 (fun _ =>
    ⟨[advChunk], rfl, by decide, by
      intro tc htc
      have h : tc ∈ [(⟨some "c", some "t", "[]"⟩ : ToolCall)] := htc
      rw [List.mem_singleton] at h
      subst h
      exact ⟨Json.arr [], rfl⟩⟩)

/-- Number of events of a given kind in an emitted sequence. -/
def countEv (evs : List SSEvent) (name : String) : Nat :=
  (evs.filter (fun e => e.event == name)).length

theorem appProcessChunk_events (st : AccState) (ch : Chunk) :
    ∀ ev ∈ (appProcessChunk st ch).2,
      ev.event = "reasoning_delta" ∨ ev.event = "text_delta" := by
  rcases ch with ⟨choices⟩
  cases choices with
  | nil => simp [appProcessChunk]
  | cons choice rest =>
    rcases choice with ⟨delta⟩
    cases delta with
    | none => simp [appProcessChunk]
    | some d =>
      cases h1 : truthy d.reasoning_content <;> cases h2 : truthy d.content <;>
        cases h3 : truthyList d.tool_calls <;>
        simp [appProcessChunk, h1, h2, h3, sse_event]

theorem appAccumulate_events (chunks : List Chunk) :
    ∀ ev ∈ (appAccumulate chunks).2,
      ev.event = "reasoning_delta" ∨ ev.event = "text_delta" := by
  have main : ∀ (cs : List Chunk) (st : AccState) (evs : List SSEvent),
      (∀ ev ∈ evs, ev.event = "reasoning_delta" ∨ ev.event = "text_delta") →
      ∀ ev ∈ (cs.foldl (fun acc ch =>
        let r := appProcessChunk acc.1 ch
        (r.1, acc.2 ++ r.2)) (st, evs)).2,
        ev.event = "reasoning_delta" ∨ ev.event = "text_delta" := by
    intro cs
    induction cs with
    | nil => intro st evs h; exact h
    | cons ch rest ih =>
      intro st evs h
      refine ih _ _ (fun ev hev => ?_)
      rcases List.mem_append.mp hev with hl | hr
      · exact h ev hl
      · exact appProcessChunk_events st ch ev hr
  exact main chunks AccState.init [] (by simp)

/-- C7 (amended): an exception raised while consuming the model's stream
propagates out of the generator — the loop halts without retrying and no
partial assistant message is committed (the session is unchanged), but unlike a
request-establishment failure no `error` event is emitted: the only events
delivered are the delta events streamed before the failure. -/
theorem c7_stream_exception (env : Env) (s : Session) (chunks : List Chunk) (e : String)
    (h : env.llm s.msgs = LLMResult.stream chunks (some e)) :
    appGenerate env s = ⟨(appAccumulate chunks).2, s, Outcome.raised e, 1⟩ ∧
    ∀ ev ∈ (appAccumulate chunks).2,
      ev.event = "reasoning_delta" ∨ ev.event = "text_delta" := by
  refine ⟨?_, appAccumulate_events chunks⟩
  rw [appGenerate, show (10 : Nat) = Nat.succ 9 from rfl, appRounds, h]
  rfl

/-- A chunk carrying only the text piece `"hi"`. -/
def textChunk : Chunk := ⟨[⟨some ⟨none, some "hi", none⟩⟩]⟩

/-- An environment whose stream raises `"boom"` after delivering `textChunk`. -/
def streamErrEnv : Env :=
  { parse := fun _ => Except.error "bad",
    fns := [],
    displayNames := [],
    llm := fun _ => LLMResult.stream [textChunk] (some "boom") }

/-- Witness for C7 (amended) at a concrete input. -/
theorem c7_witness :
    appGenerate streamErrEnv emptySession =
      ⟨[sse_event "text_delta" (Json.obj [("content", Json.str "hi")])],
       emptySession, Outcome.raised "boom", 1⟩ :=
  (c7_stream_exception streamErrEnv emptySession [textChunk] "boom" rfl).1

/-- Counterexample for C7 as stated: a stream-consumption exception is NOT
surfaced as an `error` event — the exception escapes the generator and the
event sequence contains no `error` event (history does remain unchanged). -/
theorem c7_counterexample :
    (appGenerate streamErrEnv emptySession).outcome = Outcome.raised "boom" ∧
    countEv (appGenerate streamErrEnv emptySession).events "error" = 0 ∧
    (appGenerate streamErrEnv emptySession).session = emptySession :=
  ⟨rfl, rfl, rfl⟩

/-- C1 (amended): a finalized tool call whose argument text is not parseable
JSON is fatal to the turn — `json.loads` raises out of the tool-execution loop
before any event is emitted for that call, the handler is not invoked, no error
payload is produced, and the generator aborts with the exception. -/
theorem c1_malformed_args_fatal (env : Env) (s : Session) (chunks : List Chunk)
    (tc : ToolCall) (rest : List ToolCall) (e : String)
    (h1 : env.llm s.msgs = LLMResult.stream chunks none)
    (h2 : appToolCallsList (appAccumulate chunks).1.tool_calls_dict = tc :: rest)
    (h3 : env.parse tc.arguments = Except.error e) :
    (∀ s2, appExecTools env (tc :: rest) s2 = ([], s2, some e)) ∧
    (appGenerate env s).outcome = Outcome.raised e := by
  have hexec : ∀ s2, appExecTools env (tc :: rest) s2 = ([], s2, some e) := by
    intro s2
    rw [appExecTools, h3]
  refine ⟨hexec, ?_⟩
  rw [appGenerate, show (10 : Nat) = Nat.succ 9 from rfl, appRounds, h1, appRound]
  simp only [h2, hexec, List.isEmpty_cons, Bool.false_eq_true, if_false]

/-- A chunk whose tool-call fragment carries the unparseable argument text
`"oops"`. -/
def badArgsChunk : Chunk :=
  ⟨[⟨some ⟨none, none, some [⟨0, some "c1", some ⟨some "t", some "oops"⟩⟩]⟩⟩]⟩

/-- An environment whose single round finalizes one tool call with unparseable
arguments. -/
def badArgsEnv : Env :=
  { parse := fun s => Except.error ("Expecting value: " ++ s),
    fns := [],
    displayNames := [],
    llm := fun _ => LLMResult.stream [badArgsChunk] none }

/-- Witness for C1 (amended) at a concrete input. -/
theorem c1_witness :
    appExecTools badArgsEnv [⟨some "c1", some "t", "oops"⟩] emptySession =
      ([], emptySession, some "Expecting value: oops") ∧
    (appGenerate badArgsEnv emptySession).outcome =
      Outcome.raised "Expecting value: oops" :=
  ⟨(c1_malformed_args_fatal badArgsEnv emptySession [badArgsChunk]
      ⟨some "c1", some "t", "oops"⟩ [] "Expecting value: oops" rfl rfl rfl).1 emptySession,
   (c1_malformed_args_fatal badArgsEnv emptySession [badArgsChunk]
      ⟨some "c1", some "t", "oops"⟩ [] "Expecting value: oops" rfl rfl rfl).2⟩

/-- Counterexample for C1 as stated: at this concrete input the parse failure
IS fatal — the turn aborts with the exception, no event at all is emitted (in
particular no error payload for the call), and only the assistant message was
committed (no tool-result message). -/
theorem c1_counterexample :
    (appGenerate badArgsEnv emptySession).outcome =
      Outcome.raised "Expecting value: oops" ∧
    (appGenerate badArgsEnv emptySession).events = [] ∧
    (appGenerate badArgsEnv emptySession).session.msgs =
      [Message.assistant none [⟨some "c1", some "t", "oops"⟩] none] :=
  ⟨rfl, rfl, rfl⟩

theorem alLookup_alInsert {κ α : Type} [DecidableEq κ] (d : List (κ × α)) (k : κ) (v : α) (key : κ) :
    alLookup (alInsert d k v) key = if k = key then some v else alLookup d key := by
  induction d with
  | nil => simp [alInsert, alLookup]
  | cons p rest ih =>
    rcases p with ⟨k0, v0⟩
    by_cases h0 : k0 = k
    · subst h0
      by_cases hk : k0 = key <;> simp [alInsert, alLookup, hk]
    · by_cases hk0 : k0 = key
      · subst hk0
        have hk : ¬k = k0 := fun h => h0 h.symm
        simp [alInsert, alLookup, h0, hk]
      · simp [alInsert, alLookup, h0, hk0, ih]

/-- The tool-call fragments one chunk contributes to the accumulator (empty
when the chunk has no choices, no delta, or a falsy `tool_calls`). -/
def deltaToolFrags (ch : Chunk) : List ToolCallChunk :=
  match ch.choices with
  | [] => []
  | choice :: _ =>
    match choice.delta with
    | none => []
    | some delta => if truthyList delta.tool_calls then delta.tool_calls.getD [] else []

/-- All tool-call fragments of a stream, in arrival order. -/
def flatFrags : List Chunk → List ToolCallChunk
  | [] => []
  | ch :: rest => deltaToolFrags ch ++ flatFrags rest

theorem appProcessChunk_dict (st : AccState) (ch : Chunk) :
    (appProcessChunk st ch).1.tool_calls_dict =
      (deltaToolFrags ch).foldl dictStep st.tool_calls_dict := by
  rcases ch with ⟨choices⟩
  cases choices with
  | nil => rfl
  | cons choice rest =>
    rcases choice with ⟨delta⟩
    cases delta with
    | none => rfl
    | some d =>
      cases h1 : truthy d.reasoning_content <;> cases h2 : truthy d.content <;>
        cases h3 : truthyList d.tool_calls <;>
        simp [appProcessChunk, deltaToolFrags, h1, h2, h3]

theorem appAccumulate_dict (chunks : List Chunk) :
    (appAccumulate chunks).1.tool_calls_dict = (flatFrags chunks).foldl dictStep [] := by
  have main : ∀ (cs : List Chunk) (st : AccState) (evs : List SSEvent),
      (cs.foldl (fun acc ch =>
        let r := appProcessChunk acc.1 ch
        (r.1, acc.2 ++ r.2)) (st, evs)).1.tool_calls_dict =
      (flatFrags cs).foldl dictStep st.tool_calls_dict := by
    intro cs
    induction cs with
    | nil => intro st evs; rfl
    | cons ch rest ih =>
      intro st evs
      simp only [List.foldl_cons, flatFrags, List.foldl_append]
      rw [ih, appProcessChunk_dict]
  exact main chunks AccState.init []

theorem foldl_dictStep_lookup (tcs : List ToolCallChunk) (d : List (Nat × ToolEntry)) (i : Nat) :
    alLookup (tcs.foldl dictStep d) i =
      (tcs.filter (fun tc => tc.index == i)).foldl
        (fun o tc => some (applyToolChunk (o.getD freshEntry) tc)) (alLookup d i) := by
  induction tcs generalizing d with
  | nil => rfl
  | cons tc rest ih =>
    simp only [List.foldl_cons]
    rw [ih]
    by_cases hidx : tc.index = i <;>
      simp [List.filter_cons, hidx, dictStep, alLookup_alInsert]

/-- The identifier carried by one fragment, `none` when absent or falsy. -/
def idFrag (tc : ToolCallChunk) : Option String :=
  if truthy tc.id then tc.id else none

/-- The function name carried by one fragment, `none` when absent or falsy. -/
def nameFrag (tc : ToolCallChunk) : Option String :=
  match tc.function with
  | some f => if truthy f.name then f.name else none
  | none => none

/-- The argument-text piece carried by one fragment (`""` when absent). -/
def argFrag (tc : ToolCallChunk) : String :=
  match tc.function with
  | some f => if truthy f.arguments then f.arguments.getD "" else ""
  | none => ""

def orOpt (a b : Option String) : Option String :=
  match a with
  | some v => some v
  | none => b

theorem orOpt_none (a : Option String) : orOpt a none = a := by
  cases a <;> rfl

/-- The last `some` of a list of optional values. -/
def lastSome : List (Option String) → Option String
  | [] => none
  | o :: rest => orOpt (lastSome rest) o

def concatStrs : List String → String
  | [] => ""
  | s :: rest => s ++ concatStrs rest

theorem truthy_none : truthy none = false := rfl

theorem applyToolChunk_id (e : ToolEntry) (tc : ToolCallChunk) :
    (applyToolChunk e tc).id = orOpt (idFrag tc) e.id := by
  rcases tc with ⟨idx, tid, fn⟩
  rcases fn with _ | f
  · rcases tid with _ | s
    · simp [applyToolChunk, idFrag, orOpt, truthy_none]
    · cases h1 : truthy (some s) <;> simp [applyToolChunk, idFrag, orOpt, h1]
  · rcases tid with _ | s
    · cases h2 : truthy f.name <;> cases h3 : truthy f.arguments <;>
        simp [applyToolChunk, idFrag, orOpt, truthy_none, h2, h3]
    · cases h1 : truthy (some s) <;> cases h2 : truthy f.name <;>
        cases h3 : truthy f.arguments <;>
        simp [applyToolChunk, idFrag, orOpt, h1, h2, h3]

theorem applyToolChunk_name (e : ToolEntry) (tc : ToolCallChunk) :
    (applyToolChunk e tc).name = orOpt (nameFrag tc) e.name := by
  rcases tc with ⟨idx, tid, fn⟩
  rcases fn with _ | ⟨fname, fargs⟩
  · cases h1 : truthy tid <;> simp [applyToolChunk, nameFrag, orOpt, h1]
  · rcases fname with _ | nm
    · cases h1 : truthy tid <;> cases h3 : truthy fargs <;>
        simp [applyToolChunk, nameFrag, orOpt, truthy_none, h1, h3]
    · cases h1 : truthy tid <;> cases h2 : truthy (some nm) <;> cases h3 : truthy fargs <;>
        simp [applyToolChunk, nameFrag, orOpt, h1, h2, h3]

theorem applyToolChunk_args (e : ToolEntry) (tc : ToolCallChunk) :
    (applyToolChunk e tc).arguments = e.arguments ++ argFrag tc := by
  rcases tc with ⟨idx, tid, fn⟩
  rcases fn with _ | ⟨fname, fargs⟩
  · cases h1 : truthy tid <;> simp [applyToolChunk, argFrag, h1]
  · cases h1 : truthy tid <;> cases h2 : truthy fname <;> cases h3 : truthy fargs <;>
      simp [applyToolChunk, argFrag, h1, h2, h3]

theorem foldl_applyToolChunk_id (frs : List ToolCallChunk) (e : ToolEntry) :
    (frs.foldl applyToolChunk e).id = orOpt (lastSome (frs.map idFrag)) e.id := by
  induction frs generalizing e with
  | nil => rfl
  | cons f rest ih =>
    simp only [List.foldl_cons, List.map_cons, lastSome]
    rw [ih, applyToolChunk_id]
    cases lastSome (rest.map idFrag) <;> cases hf : idFrag f <;> simp [orOpt]

theorem foldl_applyToolChunk_name (frs : List ToolCallChunk) (e : ToolEntry) :
    (frs.foldl applyToolChunk e).name = orOpt (lastSome (frs.map nameFrag)) e.name := by
  induction frs generalizing e with
  | nil => rfl
  | cons f rest ih =>
    simp only [List.foldl_cons, List.map_cons, lastSome]
    rw [ih, applyToolChunk_name]
    cases lastSome (rest.map nameFrag) <;> cases hf : nameFrag f <;> simp [orOpt]

theorem foldl_applyToolChunk_args (frs : List ToolCallChunk) (e : ToolEntry) :
    (frs.foldl applyToolChunk e).arguments = e.arguments ++ concatStrs (frs.map argFrag) := by
  induction frs generalizing e with
  | nil => simp [concatStrs]
  | cons f rest ih =>
    simp only [List.foldl_cons, List.map_cons, concatStrs]
    rw [ih, applyToolChunk_args, String.append_assoc]

theorem foldl_someApply (frs : List ToolCallChunk) (e : ToolEntry) :
    frs.foldl (fun o tc => some (applyToolChunk (o.getD freshEntry) tc)) (some e) =
      some (frs.foldl applyToolChunk e) := by
  induction frs generalizing e with
  | nil => rfl
  | cons f rest ih =>
    simp only [List.foldl_cons, Option.getD_some]
    exact ih _

/-- The fragments of the stream addressed to index `i`, in arrival order. -/
def fragmentsFor (chunks : List Chunk) (i : Nat) : List ToolCallChunk :=
  (flatFrags chunks).filter (fun tc => tc.index == i)

theorem toolEntry_eq (a b : ToolEntry) (h1 : a.id = b.id) (h2 : a.name = b.name)
    (h3 : a.arguments = b.arguments) : a = b := by
  cases a
  cases b
  simp_all

theorem collapse_fragments (frs : List ToolCallChunk) :
    frs.foldl (fun o tc => some (applyToolChunk (o.getD freshEntry) tc)) none =
      match frs with
      | [] => none
      | _ :: _ => some
          { id := lastSome (frs.map idFrag),
            name := lastSome (frs.map nameFrag),
            arguments := concatStrs (frs.map argFrag) } := by
  cases frs with
  | nil => rfl
  | cons f rest =>
    simp only [List.foldl_cons, Option.getD_none]
    rw [foldl_someApply]
    congr 1
    apply toolEntry_eq
    · have h1 := foldl_applyToolChunk_id (f :: rest) freshEntry
      simp only [List.foldl_cons] at h1
      rw [h1, show freshEntry.id = none from rfl, orOpt_none]
    · have h2 := foldl_applyToolChunk_name (f :: rest) freshEntry
      simp only [List.foldl_cons] at h2
      rw [h2, show freshEntry.name = none from rfl, orOpt_none]
    · have h3 := foldl_applyToolChunk_args (f :: rest) freshEntry
      simp only [List.foldl_cons] at h3
      rw [h3, show freshEntry.arguments = "" from rfl, String.empty_append]

/-- C2 (amended): for every streamed delta sequence and index, the accumulated
entry for that index is: identifier = the value of the LAST fragment carrying a
truthy identifier (later identifier-carrying fragments overwrite earlier ones,
contrary to first-wins immutability), function name likewise, and argument text
= the concatenation, in arrival order, of every argument-text fragment, none
overwritten, reordered, or dropped. -/
theorem c2_accumulator_last_wins (chunks : List Chunk) (i : Nat) :
    alLookup (appAccumulate chunks).1.tool_calls_dict i =
      match fragmentsFor chunks i with
      | [] => none
      | _ :: _ => some
          { id := lastSome ((fragmentsFor chunks i).map idFrag),
            name := lastSome ((fragmentsFor chunks i).map nameFrag),
            arguments := concatStrs ((fragmentsFor chunks i).map argFrag) } := by
  rw [appAccumulate_dict, foldl_dictStep_lookup]
  show (fragmentsFor chunks i).foldl _ (alLookup [] i) = _
  rw [show alLookup ([] : List (Nat × ToolEntry)) i = none from rfl]
  exact collapse_fragments (fragmentsFor chunks i)

/-- A chunk carrying only an identifier fragment `"a"` for index 0. -/
def idAChunk : Chunk := ⟨[⟨some ⟨none, none, some [⟨0, some "a", none⟩]⟩⟩]⟩

/-- A chunk carrying only an identifier fragment `"b"` for index 0. -/
def idBChunk : Chunk := ⟨[⟨some ⟨none, none, some [⟨0, some "b", none⟩]⟩⟩]⟩

/-- Counterexample for C2 as stated: when two fragments for the same index both
carry an identifier, the finalized identifier is the second one (`"b"`), not
the value fixed by the first identifier-carrying fragment (`"a"`) — the
identifier is not immutable after first assignment. -/
theorem c2_counterexample :
    appToolCallsList (appAccumulate [idAChunk, idBChunk]).1.tool_calls_dict =
      [{ id := some "b", name := none, arguments := "" }] ∧
    (fragmentsFor [idAChunk, idBChunk] 0).map idFrag = [some "a", some "b"] :=
  ⟨rfl, rfl⟩

theorem insertByKey_perm (p : Nat × ToolEntry) (l : List (Nat × ToolEntry)) :
    List.Perm (insertByKey p l) (p :: l) := by
  induction l with
  | nil => exact List.Perm.refl _
  | cons q rest ih =>
    by_cases h : p.1 ≤ q.1
    · simp only [insertByKey, if_pos h]
      exact List.Perm.refl _
    · simp only [insertByKey, if_neg h]
      exact (ih.cons q).trans (List.Perm.swap p q rest)

theorem sortByKey_perm (l : List (Nat × ToolEntry)) : List.Perm (sortByKey l) l := by
  induction l with
  | nil => exact List.Perm.refl _
  | cons p rest ih =>
    show List.Perm (insertByKey p (sortByKey rest)) (p :: rest)
    exact (insertByKey_perm p _).trans (ih.cons p)

theorem insertByKey_sorted (p : Nat × ToolEntry) (l : List (Nat × ToolEntry))
    (h : List.Pairwise (fun a b : Nat × ToolEntry => a.1 ≤ b.1) l) :
    List.Pairwise (fun a b : Nat × ToolEntry => a.1 ≤ b.1) (insertByKey p l) := by
  induction l with
  | nil => simp [insertByKey]
  | cons q rest ih =>
    rcases List.pairwise_cons.mp h with ⟨hq, hrest⟩
    by_cases hle : p.1 ≤ q.1
    · simp only [insertByKey, if_pos hle]
      refine List.pairwise_cons.mpr ⟨?_, h⟩
      intro x hx
      rcases List.mem_cons.mp hx with rfl | hx'
      · exact hle
      · exact le_trans hle (hq x hx')
    · simp only [insertByKey, if_neg hle]
      refine List.pairwise_cons.mpr ⟨?_, ih hrest⟩
      intro x hx
      have hmem : x = p ∨ x ∈ rest := by
        have := (insertByKey_perm p rest).mem_iff.mp hx
        simpa using this
      rcases hmem with rfl | hx'
      · exact le_of_not_le hle
      · exact hq x hx'

theorem sortByKey_sorted (l : List (Nat × ToolEntry)) :
    List.Pairwise (fun a b : Nat × ToolEntry => a.1 ≤ b.1) (sortByKey l) := by
  induction l with
  | nil => simp [sortByKey]
  | cons p rest ih =>
    show List.Pairwise _ (insertByKey p (sortByKey rest))
    exact insertByKey_sorted p _ ih

/-- A chunk whose first fragment is for index 1 (arriving first). -/
def idx1Chunk : Chunk :=
  ⟨[⟨some ⟨none, none, some [⟨1, some "id1", some ⟨some "t1", some "a1"⟩⟩]⟩⟩]⟩

/-- A chunk whose fragment is for index 0 (arriving second). -/
def idx0Chunk : Chunk :=
  ⟨[⟨some ⟨none, none, some [⟨0, some "id0", some ⟨some "t0", some "a0"⟩⟩]⟩⟩]⟩

/-- C3: the finalized tool-call list is the accumulated dictionary sorted by
ascending positional index — there is a key-sorted permutation of the dict
whose entry-wise projection is the finalized list; in particular (the claim's
example), when index 1's first fragment arrives before index 0's, the finalized
list still places call 0 before call 1. -/
theorem c3_finalize_sorted_by_index (chunks : List Chunk) :
    (∃ ds, List.Perm ds ((appAccumulate chunks).1.tool_calls_dict) ∧
        List.Pairwise (fun p q : Nat × ToolEntry => p.1 ≤ q.1) ds ∧
        appToolCallsList (appAccumulate chunks).1.tool_calls_dict =
          ds.map (fun p => p.2.toCall)) ∧
    appToolCallsList (appAccumulate [idx1Chunk, idx0Chunk]).1.tool_calls_dict =
      [⟨some "id0", some "t0", "a0"⟩, ⟨some "id1", some "t1", "a1"⟩] :=
  ⟨⟨sortByKey _, sortByKey_perm _, sortByKey_sorted _, rfl⟩, rfl⟩

/-- A chunk carrying one delta in its single choice. -/
def deltaChunk (d : Delta) : Chunk := ⟨[⟨some d⟩]⟩

/-- The fragments one delta contributes (guarded by Python truthiness). -/
def deltaFrags (d : Delta) : List ToolCallChunk :=
  if truthyList d.tool_calls then d.tool_calls.getD [] else []

def flatDeltaFrags : List Delta → List ToolCallChunk
  | [] => []
  | d :: rest => deltaFrags d ++ flatDeltaFrags rest

/-- The whole logical response of a list of deltas merged into one delta: the
full answer text, the full reasoning text, and the full fragment list in
order. -/
def mergeDeltas (ds : List Delta) : Delta :=
  { reasoning_content := some (concatStrs (ds.map (fun d => d.reasoning_content.getD ""))),
    content := some (concatStrs (ds.map (fun d => d.content.getD ""))),
    tool_calls := some (flatDeltaFrags ds) }

theorem getD_empty_of_not_truthy (o : Option String) (h : truthy o = false) :
    o.getD "" = "" := by
  cases o with
  | none => rfl
  | some s =>
    simp only [truthy, Bool.not_eq_false'] at h
    simpa [String.isEmpty_iff] using h

/-- The text piece one chunk contributes to `full_content` (the truthiness
guard is immaterial: a falsy piece is `""`, and appending `""` is a no-op). -/
def chunkContentPiece (ch : Chunk) : String :=
  match ch.choices with
  | [] => ""
  | choice :: _ =>
    match choice.delta with
    | none => ""
    | some d => d.content.getD ""

def chunkReasoningPiece (ch : Chunk) : String :=
  match ch.choices with
  | [] => ""
  | choice :: _ =>
    match choice.delta with
    | none => ""
    | some d => d.reasoning_content.getD ""

theorem appProcessChunk_content (st : AccState) (ch : Chunk) :
    (appProcessChunk st ch).1.full_content = st.full_content ++ chunkContentPiece ch := by
  rcases ch with ⟨choices⟩
  cases choices with
  | nil => simp [appProcessChunk, chunkContentPiece]
  | cons choice rest =>
    rcases choice with ⟨delta⟩
    cases delta with
    | none => simp [appProcessChunk, chunkContentPiece]
    | some d =>
      cases h1 : truthy d.reasoning_content <;> cases h2 : truthy d.content <;>
        cases h3 : truthyList d.tool_calls <;>
        simp [appProcessChunk, chunkContentPiece, h1, h2, h3, getD_empty_of_not_truthy]

theorem appProcessChunk_reasoning (st : AccState) (ch : Chunk) :
    (appProcessChunk st ch).1.full_reasoning = st.full_reasoning ++ chunkReasoningPiece ch := by
  rcases ch with ⟨choices⟩
  cases choices with
  | nil => simp [appProcessChunk, chunkReasoningPiece]
  | cons choice rest =>
    rcases choice with ⟨delta⟩
    cases delta with
    | none => simp [appProcessChunk, chunkReasoningPiece]
    | some d =>
      cases h1 : truthy d.reasoning_content <;> cases h2 : truthy d.content <;>
        cases h3 : truthyList d.tool_calls <;>
        simp [appProcessChunk, chunkReasoningPiece, h1, h2, h3, getD_empty_of_not_truthy]

theorem appAccumulate_content (chunks : List Chunk) :
    (appAccumulate chunks).1.full_content = concatStrs (chunks.map chunkContentPiece) := by
  have main : ∀ (cs : List Chunk) (st : AccState) (evs : List SSEvent),
      (cs.foldl (fun acc ch =>
        let r := appProcessChunk acc.1 ch
        (r.1, acc.2 ++ r.2)) (st, evs)).1.full_content =
      st.full_content ++ concatStrs (cs.map chunkContentPiece) := by
    intro cs
    induction cs with
    | nil => intro st evs; simp [concatStrs]
    | cons ch rest ih =>
      intro st evs
      simp only [List.foldl_cons, List.map_cons, concatStrs]
      rw [ih, appProcessChunk_content, String.append_assoc]
  simpa using main chunks AccState.init []

theorem appAccumulate_reasoning (chunks : List Chunk) :
    (appAccumulate chunks).1.full_reasoning = concatStrs (chunks.map chunkReasoningPiece) := by
  have main : ∀ (cs : List Chunk) (st : AccState) (evs : List SSEvent),
      (cs.foldl (fun acc ch =>
        let r := appProcessChunk acc.1 ch
        (r.1, acc.2 ++ r.2)) (st, evs)).1.full_reasoning =
      st.full_reasoning ++ concatStrs (cs.map chunkReasoningPiece) := by
    intro cs
    induction cs with
    | nil => intro st evs; simp [concatStrs]
    | cons ch rest ih =>
      intro st evs
      simp only [List.foldl_cons, List.map_cons, concatStrs]
      rw [ih, appProcessChunk_reasoning, String.append_assoc]
  simpa using main chunks AccState.init []

theorem accState_eq (a b : AccState) (h1 : a.full_content = b.full_content)
    (h2 : a.full_reasoning = b.full_reasoning)
    (h3 : a.tool_calls_dict = b.tool_calls_dict) : a = b := by
  cases a
  cases b
  simp_all

theorem flatFrags_deltaChunks (ds : List Delta) :
    flatFrags (ds.map deltaChunk) = flatDeltaFrags ds := by
  induction ds with
  | nil => rfl
  | cons d rest ih =>
    simp only [List.map_cons, flatFrags, flatDeltaFrags, ih]
    rfl

theorem truthyList_guard {α : Type} (l : List α) :
    (if truthyList (some l) then l else []) = l := by
  cases l <;> simp [truthyList]

/-- C4: fragment accumulation is invariant under fragmentation granularity —
feeding a logical response as N per-delta chunks and feeding it as the single
merged chunk yield the same accumulator state, hence the same finalized answer
text, reasoning text, and finalized tool-call list (same identifiers, names,
argument text, order). -/
theorem c4_granularity_invariance (ds : List Delta) :
    (appAccumulate (ds.map deltaChunk)).1 =
      (appAccumulate [deltaChunk (mergeDeltas ds)]).1 ∧
    appToolCallsList (appAccumulate (ds.map deltaChunk)).1.tool_calls_dict =
      appToolCallsList (appAccumulate [deltaChunk (mergeDeltas ds)]).1.tool_calls_dict := by
  have hstate : (appAccumulate (ds.map deltaChunk)).1 =
      (appAccumulate [deltaChunk (mergeDeltas ds)]).1 := by
    apply accState_eq
    · rw [appAccumulate_content, appAccumulate_content]
      simp only [List.map_map, List.map_cons, List.map_nil, concatStrs,
        String.append_empty]
      rfl
    · rw [appAccumulate_reasoning, appAccumulate_reasoning]
      simp only [List.map_map, List.map_cons, List.map_nil, concatStrs,
        String.append_empty]
      rfl
    · rw [appAccumulate_dict, appAccumulate_dict]
      rw [flatFrags_deltaChunks]
      show _ = (List.foldl dictStep [] (deltaToolFrags (deltaChunk (mergeDeltas ds)) ++ []))
      rw [List.append_nil]
      show _ = List.foldl dictStep []
        (if truthyList (some (flatDeltaFrags ds)) then flatDeltaFrags ds else [])
      rw [truthyList_guard]
  exact ⟨hstate, by rw [hstate]⟩

/-- Projection of the server's accumulator state onto the script's (the script
tracks no reasoning buffer). -/
def projAcc (a : AccState) : RunAccState := ⟨a.full_content, a.tool_calls_dict⟩

theorem runProcessChunk_proj (st : AccState) (ch : Chunk) :
    runProcessChunk (projAcc st) ch = projAcc (appProcessChunk st ch).1 := by
  rcases ch with ⟨choices⟩
  cases choices with
  | nil => rfl
  | cons choice rest =>
    rcases choice with ⟨delta⟩
    cases delta with
    | none => rfl
    | some d =>
      cases h1 : truthy d.reasoning_content <;> cases h2 : truthy d.content <;>
        cases h3 : truthyList d.tool_calls <;>
        simp [runProcessChunk, appProcessChunk, projAcc, h1, h2, h3]

theorem runAccumulate_proj (chunks : List Chunk) :
    runAccumulate chunks = projAcc (appAccumulate chunks).1 := by
  have main : ∀ (cs : List Chunk) (st : AccState) (evs : List SSEvent),
      cs.foldl runProcessChunk (projAcc st) =
        projAcc ((cs.foldl (fun acc ch =>
          let r := appProcessChunk acc.1 ch
          (r.1, acc.2 ++ r.2)) (st, evs)).1) := by
    intro cs
    induction cs with
    | nil => intro st evs; rfl
    | cons ch rest ih =>
      intro st evs
      simp only [List.foldl_cons]
      rw [runProcessChunk_proj, ih]
  exact main chunks AccState.init []

theorem alInsert_map_fst {κ α : Type} [DecidableEq κ] (d : List (κ × α)) (k : κ) (v : α) :
    (alInsert d k v).map Prod.fst =
      if k ∈ d.map Prod.fst then d.map Prod.fst else d.map Prod.fst ++ [k] := by
  induction d with
  | nil => simp [alInsert]
  | cons p rest ih =>
    rcases p with ⟨k0, v0⟩
    by_cases h0 : k0 = k
    · subst h0
      simp [alInsert]
    · simp only [alInsert, if_neg h0, List.map_cons, List.mem_cons]
      have : ¬ k = k0 := fun h => h0 h.symm
      by_cases hm : k ∈ rest.map Prod.fst <;> simp [ih, hm, this]

theorem dictStep_keys_nodup (d : List (Nat × ToolEntry)) (tc : ToolCallChunk)
    (h : (d.map Prod.fst).Nodup) : ((dictStep d tc).map Prod.fst).Nodup := by
  rw [dictStep, alInsert_map_fst]
  by_cases hm : tc.index ∈ d.map Prod.fst
  · simpa [hm] using h
  · rw [if_neg hm]
    exact h.append (List.nodup_singleton _) (List.disjoint_singleton.mpr hm)

theorem foldl_dictStep_nodup (tcs : List ToolCallChunk) (d : List (Nat × ToolEntry))
    (h : (d.map Prod.fst).Nodup) : (((tcs.foldl dictStep d)).map Prod.fst).Nodup := by
  induction tcs generalizing d with
  | nil => exact h
  | cons tc rest ih => exact ih _ (dictStep_keys_nodup d tc h)

theorem appAccumulate_keys_nodup (chunks : List Chunk) :
    (((appAccumulate chunks).1.tool_calls_dict).map Prod.fst).Nodup := by
  rw [appAccumulate_dict]
  exact foldl_dictStep_nodup _ [] (by simp)

theorem alLookup_of_mem_nodup (d : List (Nat × ToolEntry)) (p : Nat × ToolEntry)
    (hmem : p ∈ d) (h : (d.map Prod.fst).Nodup) : alLookup d p.1 = some p.2 := by
  induction d with
  | nil => cases hmem
  | cons q rest ih =>
    simp only [List.map_cons, List.nodup_cons] at h
    rcases List.mem_cons.mp hmem with rfl | hp
    · simp [alLookup]
    · have hne : ¬ q.1 = p.1 := fun he => h.1 (he ▸ List.mem_map_of_mem Prod.fst hp)
      simp [alLookup, hne, ih hp h.2]

theorem insertByKey_map_fst (p : Nat × ToolEntry) (l : List (Nat × ToolEntry)) :
    (insertByKey p l).map Prod.fst = insertNat p.1 (l.map Prod.fst) := by
  induction l with
  | nil => rfl
  | cons q rest ih =>
    by_cases h : p.1 ≤ q.1 <;> simp [insertByKey, insertNat, h, ih]

theorem sortByKey_map_fst (l : List (Nat × ToolEntry)) :
    (sortByKey l).map Prod.fst = sortNat (l.map Prod.fst) := by
  induction l with
  | nil => rfl
  | cons p rest ih =>
    show (insertByKey p (sortByKey rest)).map Prod.fst = insertNat p.1 (sortNat (rest.map Prod.fst))
    rw [insertByKey_map_fst, ih]

/-- With distinct keys — the invariant of the accumulator's dict — the script's
sorted-keys-and-lookup finalization agrees with the server's sorted-items
finalization. -/
theorem finalize_eq (d : List (Nat × ToolEntry)) (h : (d.map Prod.fst).Nodup) :
    runToolCallsList d = appToolCallsList d := by
  by_cases hd : d.isEmpty
  · rw [List.isEmpty_iff] at hd
    subst hd
    rfl
  · rw [runToolCallsList, if_neg hd, appToolCallsList, ← sortByKey_map_fst, List.map_map]
    apply List.map_congr_left
    intro p hp
    have hmem : p ∈ d := (sortByKey_perm d).mem_iff.mp hp
    simp [Function.comp, alLookup_of_mem_nodup d p hmem h]

/-- The events the server's tool loop emits (empty suffix after a parse
failure, a `tool_start`/`tool_done` pair per successfully parsed call). -/
def appExecEvs (env : Env) : List ToolCall → List SSEvent
  | [] => []
  | tc :: rest =>
    match env.parse tc.arguments with
    | .error _ => []
    | .ok fn_args =>
      let fn_name := pyStr tc.name
      let display := (alLookup env.displayNames fn_name).getD fn_name
      let result := call_tool env.fns fn_name fn_args
      let result_obj := match env.parse result with
        | .ok o => o
        | .error _ => Json.str result
      sse_event "tool_start" (Json.obj
        [("id", optJson tc.id), ("name", Json.str fn_name),
         ("display_name", Json.str display), ("args", fn_args)]) ::
      sse_event "tool_done" (Json.obj
        [("id", optJson tc.id), ("name", Json.str fn_name),
         ("display_name", Json.str display), ("result", result_obj)]) ::
      appExecEvs env rest

/-- The tool-result messages the tool loop appends. -/
def execMsgsDelta (env : Env) : List ToolCall → List Message
  | [] => []
  | tc :: rest =>
    match env.parse tc.arguments with
    | .error _ => []
    | .ok fn_args =>
      Message.tool tc.id (call_tool env.fns (pyStr tc.name) fn_args) :: execMsgsDelta env rest

/-- The id → name recordings the tool loop performs. -/
def execNames (env : Env) : List ToolCall → List (Option String × String) → List (Option String × String)
  | [], t => t
  | tc :: rest, t =>
    match env.parse tc.arguments with
    | .error _ => t
    | .ok _ => execNames env rest (alInsert t tc.id (pyStr tc.name))

/-- The exception (if any) escaping the server's tool loop. -/
def appExecExc (env : Env) : List ToolCall → Option String
  | [] => none
  | tc :: rest =>
    match env.parse tc.arguments with
    | .error e => some e
    | .ok _ => appExecExc env rest

theorem appExecTools_shape (env : Env) (calls : List ToolCall) :
    ∀ s, appExecTools env calls s =
      (appExecEvs env calls,
       { s with msgs := s.msgs ++ execMsgsDelta env calls,
                tool_names := execNames env calls s.tool_names },
       appExecExc env calls) := by
  induction calls with
  | nil => intro s; simp [appExecTools, appExecEvs, execMsgsDelta, execNames, appExecExc]
  | cons tc rest ih =>
    intro s
    cases hp : env.parse tc.arguments with
    | error e =>
      simp [appExecTools, appExecEvs, execMsgsDelta, execNames, appExecExc, hp]
    | ok fn_args =>
      simp [appExecTools, appExecEvs, execMsgsDelta, execNames, appExecExc, hp, ih]

theorem runExecTools_shape (env : Env) (calls : List ToolCall)
    (hobj : ∀ tc ∈ calls, ∀ j, env.parse tc.arguments = Except.ok j →
      ∃ kvs, j = Json.obj kvs) :
    ∀ rs, runExecTools env calls rs =
      ({ rs with msgs := rs.msgs ++ execMsgsDelta env calls,
                 tool_names := execNames env calls rs.tool_names },
       appExecExc env calls) := by
  induction calls with
  | nil => intro rs; simp [runExecTools, execMsgsDelta, execNames, appExecExc]
  | cons tc rest ih =>
    intro rs
    cases hp : env.parse tc.arguments with
    | error e =>
      simp [runExecTools, execMsgsDelta, execNames, appExecExc, hp]
    | ok fn_args =>
      obtain ⟨kvs, hkvs⟩ := hobj tc (List.mem_cons_self tc rest) fn_args hp
      subst hkvs
      have ih2 := ih (fun tc' htc' => hobj tc' (List.mem_cons_of_mem tc htc'))
      simp [runExecTools, execMsgsDelta, execNames, appExecExc, hp, ih2]

theorem appRound_session (env : Env) (chunks : List Chunk) (s : Session) :
    (appRound env (LLMResult.stream chunks none) s).2.1 =
      (if (appToolCallsList (appAccumulate chunks).1.tool_calls_dict).isEmpty then
        { s with msgs := s.msgs ++ [assistantMsgOf (appAccumulate chunks).1
            (appToolCallsList (appAccumulate chunks).1.tool_calls_dict)] }
      else
        { s with
          msgs := s.msgs ++ [assistantMsgOf (appAccumulate chunks).1
              (appToolCallsList (appAccumulate chunks).1.tool_calls_dict)]
            ++ execMsgsDelta env (appToolCallsList (appAccumulate chunks).1.tool_calls_dict),
          tool_names := execNames env
            (appToolCallsList (appAccumulate chunks).1.tool_calls_dict) s.tool_names }) := by
  by_cases hc : (appToolCallsList (appAccumulate chunks).1.tool_calls_dict).isEmpty
  · simp [appRound, hc]
  · simp only [appRound, hc, Bool.false_eq_true, if_false]
    rw [appExecTools_shape]
    cases hx : appExecExc env (appToolCallsList (appAccumulate chunks).1.tool_calls_dict) <;>
      simp [hx]

theorem runRound_session (env : Env) (chunks : List Chunk) (rs : RunSession)
    (hobj : ∀ tc ∈ runToolCallsList (runAccumulate chunks).tool_calls_dict,
      ∀ j, env.parse tc.arguments = Except.ok j → ∃ kvs, j = Json.obj kvs) :
    (runRound env (LLMResult.stream chunks none) rs).1 =
      (if (runToolCallsList (runAccumulate chunks).tool_calls_dict).isEmpty then
        { rs with msgs := rs.msgs ++ [Message.assistant
            (if (runAccumulate chunks).full_content.isEmpty then none
             else some (runAccumulate chunks).full_content)
            (runToolCallsList (runAccumulate chunks).tool_calls_dict) none] }
      else
        { rs with
          msgs := rs.msgs ++ [Message.assistant
              (if (runAccumulate chunks).full_content.isEmpty then none
               else some (runAccumulate chunks).full_content)
              (runToolCallsList (runAccumulate chunks).tool_calls_dict) none]
            ++ execMsgsDelta env (runToolCallsList (runAccumulate chunks).tool_calls_dict),
          tool_names := execNames env
            (runToolCallsList (runAccumulate chunks).tool_calls_dict) rs.tool_names }) := by
  by_cases hc : (runToolCallsList (runAccumulate chunks).tool_calls_dict).isEmpty
  · simp [runRound, hc]
  · simp only [runRound, hc, Bool.false_eq_true, if_false]
    rw [runExecTools_shape env _ hobj]
    cases hx : appExecExc env (runToolCallsList (runAccumulate chunks).tool_calls_dict) <;>
      simp [hx]

/-- Dropping the `reasoning_content` field of an assistant message (the only
history field the script surface does not reconstruct). -/
def stripReasoning : Message → Message
  | .assistant c tcs _ => .assistant c tcs none
  | m => m

theorem stripReasoning_execMsgsDelta (env : Env) (calls : List ToolCall) :
    (execMsgsDelta env calls).map stripReasoning = execMsgsDelta env calls := by
  induction calls with
  | nil => rfl
  | cons tc rest ih =>
    cases hp : env.parse tc.arguments <;>
      simp [execMsgsDelta, hp, stripReasoning, ih]

/-- The calls the server surface finalizes from one round's response. -/
def finalCallsOf : LLMResult → List ToolCall
  | .stream chunks none => appToolCallsList (appAccumulate chunks).1.tool_calls_dict
  | _ => []

/-- C8 (amended): given the same transcript, tool-name map, and streamed
chunks — and provided every finalized call's argument text that parses at all
parses to a JSON object — the script surface reconstructs exactly the server
surface's history: the same assistant message up to the server-only
`reasoning_content` field (same content, same tool_calls list), the same
tool-result messages, and the same id → name map. -/
theorem c8_surfaces_agree (env : Env) (res : LLMResult) (m : List Message)
    (t : List (Option String × String)) (b : Bool) (eff : String)
    (hobj : ∀ tc ∈ finalCallsOf res, ∀ j, env.parse tc.arguments = Except.ok j →
      ∃ kvs, j = Json.obj kvs) :
    (runRound env res ⟨m, t⟩).1.msgs =
      m ++ (((appRound env res ⟨m, t, b, eff⟩).2.1.msgs).drop m.length).map stripReasoning ∧
    ((appRound env res ⟨m, t, b, eff⟩).2.1.msgs).take m.length = m ∧
    (runRound env res ⟨m, t⟩).1.tool_names = (appRound env res ⟨m, t, b, eff⟩).2.1.tool_names := by
  cases res with
  | failure e =>
    simp [runRound, appRound, List.drop_left' rfl, List.take_left' rfl]
  | stream chunks strErr =>
    cases strErr with
    | some e =>
      simp [runRound, appRound, List.drop_left' rfl, List.take_left' rfl]
    | none =>
      have hcalls : runToolCallsList (runAccumulate chunks).tool_calls_dict =
          appToolCallsList (appAccumulate chunks).1.tool_calls_dict := by
        rw [runAccumulate_proj]
        exact finalize_eq _ (appAccumulate_keys_nodup chunks)
      have hcontent : (runAccumulate chunks).full_content =
          (appAccumulate chunks).1.full_content := by
        rw [runAccumulate_proj]; rfl
      have hobj2 : ∀ tc ∈ runToolCallsList (runAccumulate chunks).tool_calls_dict,
          ∀ j, env.parse tc.arguments = Except.ok j → ∃ kvs, j = Json.obj kvs := by
        rw [hcalls]; exact hobj
      rw [appRound_session, runRound_session env chunks ⟨m, t⟩ hobj2, hcalls, hcontent]
      set acc := (appAccumulate chunks).1 with hacc
      set calls := appToolCallsList acc.tool_calls_dict with hcallsdef
      have hstrip : stripReasoning (assistantMsgOf acc calls) =
          Message.assistant (if acc.full_content.isEmpty then none
            else some acc.full_content) calls none := by
        simp [assistantMsgOf, stripReasoning]
      by_cases hc : calls.isEmpty
      · simp only [hc, if_true]
        refine ⟨?_, List.take_left m [assistantMsgOf acc calls], trivial⟩
        rw [List.drop_left]
        simp [hstrip]
      · simp only [hc, Bool.false_eq_true, if_false]
        simp only [List.append_assoc]
        refine ⟨?_, List.take_left m _, trivial⟩
        rw [List.drop_left]
        simp [hstrip, stripReasoning_execMsgsDelta]

/-- A chunk finalizing one call whose argument text parses to a JSON array. -/
def listArgsChunk : Chunk :=
  ⟨[⟨some ⟨none, none, some [⟨0, some "c", some ⟨some "t", some "[1]"⟩⟩]⟩⟩]⟩

def listArgsEnv : Env :=
  { parse := fun s => if s = "[1]" then Except.ok (Json.arr [Json.num 1]) else Except.error "bad",
    fns := [],
    displayNames := [],
    llm := fun _ => LLMResult.stream [listArgsChunk] none }

/-- Counterexample for C8 as stated: from the same (empty) transcript and the
same streamed chunks, when a call's argument text parses to a non-mapping the
server round appends the assistant message AND a tool-result message (and
records the id → name entry), while the script round raises at
`fn_args.items()` after appending only the assistant message — the two
surfaces do not reconstruct the same history. -/
theorem c8_counterexample :
    (appRound listArgsEnv (LLMResult.stream [listArgsChunk] none)
      ⟨[], [], false, "medium"⟩).2.1.msgs.length = 2 ∧
    (runRound listArgsEnv (LLMResult.stream [listArgsChunk] none) ⟨[], []⟩).1.msgs.length = 1 ∧
    (appRound listArgsEnv (LLMResult.stream [listArgsChunk] none)
      ⟨[], [], false, "medium"⟩).2.1.tool_names = [(some "c", "t")] ∧
    (runRound listArgsEnv (LLMResult.stream [listArgsChunk] none) ⟨[], []⟩).1.tool_names = [] :=
  ⟨rfl, rfl, rfl, rfl⟩

/-- A chunk finalizing one call whose argument text `"args"` parses (under the
witness environment) to a JSON object. -/
def objArgsChunk : Chunk :=
  ⟨[⟨some ⟨none, none, some [⟨0, some "c", some ⟨some "t", some "args"⟩⟩]⟩⟩]⟩

def objArgsEnv : Env :=
  { parse := fun s => if s = "args" then Except.ok (Json.obj []) else Except.error "bad",
    fns := [],
    displayNames := [],
    llm := fun _ => LLMResult.stream [objArgsChunk] none }

/-- Witness for C8 (amended) at a concrete input with object-valued
arguments. -/
theorem c8_witness :
    (runRound objArgsEnv (LLMResult.stream [objArgsChunk] none) ⟨[], []⟩).1.msgs =
      [] ++ (((appRound objArgsEnv (LLMResult.stream [objArgsChunk] none)
        ⟨[], [], false, "medium"⟩).2.1.msgs).drop
          (List.length ([] : List Message))).map stripReasoning ∧
    ((appRound objArgsEnv (LLMResult.stream [objArgsChunk] none)
      ⟨[], [], false, "medium"⟩).2.1.msgs).take (List.length ([] : List Message)) = [] ∧
    (runRound objArgsEnv (LLMResult.stream [objArgsChunk] none) ⟨[], []⟩).1.tool_names =
      (appRound objArgsEnv (LLMResult.stream [objArgsChunk] none)
        ⟨[], [], false, "medium"⟩).2.1.tool_names :=
  c8_surfaces_agree objArgsEnv (LLMResult.stream [objArgsChunk] none) [] [] false "medium"
    (fun tc htc j hj => by
      have h : tc ∈ [(⟨some "c", some "t", "args"⟩ : ToolCall)] := htc
      rw [List.mem_singleton] at h
      subst h
      have h2 : Except.ok (Json.obj ([] : List (String × Json))) = Except.ok j := hj
      exact ⟨[], (Except.ok.inj h2).symm⟩)

/-- The call identifier carried in an event's data payload. -/
def evCallId (e : SSEvent) : Option String :=
  match jget e.data "id" with
  | some (Json.str s) => some s
  | _ => none

def isToolEv (e : SSEvent) : Bool :=
  e.event == "tool_start" || e.event == "tool_done"

/-- The tool events form consecutive `tool_start`/`tool_done` pairs over the
same call identifier — hence every `tool_start` precedes its `tool_done`. -/
def toolPairsOK : List SSEvent → Bool
  | [] => true
  | [_] => false
  | s :: d :: rest =>
    s.event == "tool_start" && d.event == "tool_done" &&
      (evCallId s == evCallId d) && toolPairsOK rest

/-- A sequence of delta events, optionally closed by a single terminal done
event — hence every delta precedes the done and at most one done occurs. -/
def deltasThenDone (dname doneName : String) : List SSEvent → Bool
  | [] => true
  | e :: rest =>
    if e.event == dname then deltasThenDone dname doneName rest
    else e.event == doneName && rest.isEmpty

theorem evCallId_obj (name : String) (i : Option String) (rest : List (String × Json)) :
    evCallId (sse_event name (Json.obj (("id", optJson i) :: rest))) = i := by
  cases i <;> simp [evCallId, sse_event, jget, alLookup, optJson]

theorem appExecEvs_events (env : Env) (calls : List ToolCall) :
    ∀ ev ∈ appExecEvs env calls, ev.event = "tool_start" ∨ ev.event = "tool_done" := by
  induction calls with
  | nil => simp [appExecEvs]
  | cons tc rest ih =>
    cases hp : env.parse tc.arguments with
    | error e => simp [appExecEvs, hp]
    | ok j =>
      intro ev hev
      simp only [appExecEvs, hp] at hev
      rcases List.mem_cons.mp hev with rfl | hev1
      · exact Or.inl rfl
      rcases List.mem_cons.mp hev1 with rfl | hev2
      · exact Or.inr rfl
      · exact ih ev hev2

theorem toolPairsOK_appExecEvs (env : Env) (calls : List ToolCall) :
    toolPairsOK (appExecEvs env calls) = true := by
  induction calls with
  | nil => rfl
  | cons tc rest ih =>
    cases hp : env.parse tc.arguments with
    | error e => simp [appExecEvs, hp, toolPairsOK]
    | ok j =>
      simp only [appExecEvs, hp, toolPairsOK, ih, Bool.and_true]
      rw [evCallId_obj, evCallId_obj]
      simp [sse_event]

theorem countEv_append (a b : List SSEvent) (name : String) :
    countEv (a ++ b) name = countEv a name + countEv b name := by
  simp [countEv, List.filter_append]

theorem countEv_eq_zero (l : List SSEvent) (name : String)
    (h : ∀ e ∈ l, ¬ e.event = name) : countEv l name = 0 := by
  have : l.filter (fun e => e.event == name) = [] := by
    rw [List.filter_eq_nil_iff]
    intro e he
    simpa using h e he
  simp [countEv, this]

theorem filterEv_eq_nil {p : SSEvent → Bool} (l : List SSEvent)
    (h : ∀ e ∈ l, ¬ p e = true) : l.filter p = [] :=
  List.filter_eq_nil_iff.mpr h

theorem deltasThenDone_of_all (dname doneName : String) (l : List SSEvent)
    (h : ∀ e ∈ l, e.event = dname) : deltasThenDone dname doneName l = true := by
  induction l with
  | nil => rfl
  | cons e rest ih =>
    have he : e.event = dname := h e (List.mem_cons_self e rest)
    simp [deltasThenDone, he, ih (fun x hx => h x (List.mem_cons_of_mem e hx))]

theorem deltasThenDone_append_done (dname doneName : String) (l : List SSEvent)
    (h : ∀ e ∈ l, e.event = dname) (d : SSEvent) (hd : d.event = doneName)
    (hne : ¬ doneName = dname) : deltasThenDone dname doneName (l ++ [d]) = true := by
  induction l with
  | nil => simp [deltasThenDone, hd, hne]
  | cons e rest ih =>
    have he : e.event = dname := h e (List.mem_cons_self e rest)
    simp only [List.cons_append, deltasThenDone, he, beq_self_eq_true, if_true]
    exact ih (fun x hx => h x (List.mem_cons_of_mem e hx))

theorem appRound_events_stream (env : Env) (chunks : List Chunk) (s : Session) :
    (appRound env (LLMResult.stream chunks none) s).1 =
      (appAccumulate chunks).2
      ++ (if (appAccumulate chunks).1.full_reasoning.isEmpty then []
          else [sse_event "reasoning_done"
            (Json.obj [("content", Json.str (appAccumulate chunks).1.full_reasoning)])])
      ++ (if (appAccumulate chunks).1.full_content.isEmpty then []
          else [sse_event "text_done"
            (Json.obj [("content", Json.str (appAccumulate chunks).1.full_content)])])
      ++ (if (appToolCallsList (appAccumulate chunks).1.tool_calls_dict).isEmpty then
            [sse_event "round_done" (Json.obj [])]
          else
            appExecEvs env (appToolCallsList (appAccumulate chunks).1.tool_calls_dict)
            ++ (match appExecExc env (appToolCallsList (appAccumulate chunks).1.tool_calls_dict) with
                | some _ => []
                | none => [sse_event "round_done" (Json.obj [])])) := by
  by_cases hc : (appToolCallsList (appAccumulate chunks).1.tool_calls_dict).isEmpty
  · simp [appRound, hc, List.append_assoc]
  · simp only [appRound, hc, Bool.false_eq_true, if_false]
    rw [appExecTools_shape]
    cases hx : appExecExc env (appToolCallsList (appAccumulate chunks).1.tool_calls_dict) <;>
      simp [hx, List.append_assoc]

theorem appRound_result_stream (env : Env) (chunks : List Chunk) (s : Session) :
    (appRound env (LLMResult.stream chunks none) s).2.2 =
      (if (appToolCallsList (appAccumulate chunks).1.tool_calls_dict).isEmpty then
        RoundResult.finishedNoTools
      else
        match appExecExc env (appToolCallsList (appAccumulate chunks).1.tool_calls_dict) with
        | some e => RoundResult.toolRaised e
        | none => RoundResult.continued) := by
  by_cases hc : (appToolCallsList (appAccumulate chunks).1.tool_calls_dict).isEmpty
  · simp [appRound, hc]
  · simp only [appRound, hc, Bool.false_eq_true, if_false]
    rw [appExecTools_shape]
    cases hx : appExecExc env (appToolCallsList (appAccumulate chunks).1.tool_calls_dict) <;>
      simp [hx]

theorem deltaEvs_not_tool (chunks : List Chunk) :
    ∀ ev ∈ (appAccumulate chunks).2, ¬ isToolEv ev = true := by
  intro ev hev
  rcases appAccumulate_events chunks ev hev with h | h <;> simp [isToolEv, h]

theorem appRound_toolPairs (env : Env) (res : LLMResult) (s : Session) :
    toolPairsOK (((appRound env res s).1).filter isToolEv) = true := by
  cases res with
  | failure e => simp [appRound, isToolEv, sse_event, toolPairsOK]
  | stream chunks strErr =>
    cases strErr with
    | some e =>
      have hnil : ((appRound env (LLMResult.stream chunks (some e)) s).1).filter isToolEv = [] := by
        apply filterEv_eq_nil
        intro ev hev
        exact deltaEvs_not_tool chunks ev (by simpa [appRound] using hev)
      rw [hnil]
      rfl
    | none =>
      rw [appRound_events_stream, List.filter_append, List.filter_append, List.filter_append]
      rw [filterEv_eq_nil _ (deltaEvs_not_tool chunks)]
      have h2 : (if (appAccumulate chunks).1.full_reasoning.isEmpty then []
          else [sse_event "reasoning_done"
            (Json.obj [("content", Json.str (appAccumulate chunks).1.full_reasoning)])]).filter
            isToolEv = [] := by
        split <;> simp [isToolEv, sse_event]
      have h3 : (if (appAccumulate chunks).1.full_content.isEmpty then []
          else [sse_event "text_done"
            (Json.obj [("content", Json.str (appAccumulate chunks).1.full_content)])]).filter
            isToolEv = [] := by
        split <;> simp [isToolEv, sse_event]
      rw [h2, h3]
      by_cases hc : (appToolCallsList (appAccumulate chunks).1.tool_calls_dict).isEmpty
      · simp [hc, isToolEv, sse_event, toolPairsOK]
      · simp only [hc, Bool.false_eq_true, if_false, List.nil_append, List.filter_append]
        have h4 : (appExecEvs env (appToolCallsList (appAccumulate chunks).1.tool_calls_dict)).filter
            isToolEv = appExecEvs env (appToolCallsList (appAccumulate chunks).1.tool_calls_dict) := by
          rw [List.filter_eq_self]
          intro ev hev
          rcases appExecEvs_events env _ ev hev with h | h <;> simp [isToolEv, h]
        have h5 : (match appExecExc env (appToolCallsList (appAccumulate chunks).1.tool_calls_dict) with
            | some _ => ([] : List SSEvent)
            | none => [sse_event "round_done" (Json.obj [])]).filter isToolEv = [] := by
          cases appExecExc env (appToolCallsList (appAccumulate chunks).1.tool_calls_dict) <;>
            simp [isToolEv, sse_event]
        rw [h4, h5, List.append_nil]
        exact toolPairsOK_appExecEvs env _

theorem deltaEvs_textFilter (chunks : List Chunk) :
    ∀ ev ∈ (appAccumulate chunks).2.filter
      (fun e => e.event == "text_delta" || e.event == "text_done"),
      ev.event = "text_delta" := by
  intro ev hev
  rcases List.mem_filter.mp hev with ⟨hmem, hp⟩
  rcases appAccumulate_events chunks ev hmem with h | h
  · simp [h] at hp
  · exact h

theorem deltaEvs_reasoningFilter (chunks : List Chunk) :
    ∀ ev ∈ (appAccumulate chunks).2.filter
      (fun e => e.event == "reasoning_delta" || e.event == "reasoning_done"),
      ev.event = "reasoning_delta" := by
  intro ev hev
  rcases List.mem_filter.mp hev with ⟨hmem, hp⟩
  rcases appAccumulate_events chunks ev hmem with h | h
  · exact h
  · simp [h] at hp

theorem appRound_textOrder (env : Env) (res : LLMResult) (s : Session) :
    deltasThenDone "text_delta" "text_done"
      (((appRound env res s).1).filter
        (fun e => e.event == "text_delta" || e.event == "text_done")) = true := by
  cases res with
  | failure e => simp [appRound, sse_event, deltasThenDone]
  | stream chunks strErr =>
    cases strErr with
    | some e =>
      have : (appRound env (LLMResult.stream chunks (some e)) s).1 =
          (appAccumulate chunks).2 := by simp [appRound]
      rw [this]
      exact deltasThenDone_of_all _ _ _ (deltaEvs_textFilter chunks)
    | none =>
      rw [appRound_events_stream, List.filter_append, List.filter_append, List.filter_append]
      have h2 : (if (appAccumulate chunks).1.full_reasoning.isEmpty then []
          else [sse_event "reasoning_done"
            (Json.obj [("content", Json.str (appAccumulate chunks).1.full_reasoning)])]).filter
            (fun e => e.event == "text_delta" || e.event == "text_done") = [] := by
        split <;> simp [sse_event]
      have h4 : (if (appToolCallsList (appAccumulate chunks).1.tool_calls_dict).isEmpty then
            [sse_event "round_done" (Json.obj [])]
          else
            appExecEvs env (appToolCallsList (appAccumulate chunks).1.tool_calls_dict)
            ++ (match appExecExc env (appToolCallsList (appAccumulate chunks).1.tool_calls_dict) with
                | some _ => []
                | none => [sse_event "round_done" (Json.obj [])])).filter
            (fun e => e.event == "text_delta" || e.event == "text_done") = [] := by
        split
        · simp [sse_event]
        · rw [List.filter_append]
          have ha : (appExecEvs env (appToolCallsList (appAccumulate chunks).1.tool_calls_dict)).filter
              (fun e => e.event == "text_delta" || e.event == "text_done") = [] := by
            apply filterEv_eq_nil
            intro ev hev
            rcases appExecEvs_events env _ ev hev with h | h <;> simp [h]
          have hb : (match appExecExc env (appToolCallsList (appAccumulate chunks).1.tool_calls_dict) with
              | some _ => ([] : List SSEvent)
              | none => [sse_event "round_done" (Json.obj [])]).filter
              (fun (e : SSEvent) => e.event == "text_delta" || e.event == "text_done") = [] := by
            cases appExecExc env (appToolCallsList (appAccumulate chunks).1.tool_calls_dict) <;>
              simp [sse_event]
          rw [ha, hb]
          rfl
      rw [h2, h4]
      simp only [List.append_nil, List.nil_append]
      by_cases hc : (appAccumulate chunks).1.full_content.isEmpty
      · simp only [hc, if_true, List.filter_nil, List.append_nil]
        exact deltasThenDone_of_all _ _ _ (deltaEvs_textFilter chunks)
      · simp only [hc, Bool.false_eq_true, if_false, List.filter_cons, List.filter_nil]
        simp only [sse_event]
        exact deltasThenDone_append_done _ _ _ (deltaEvs_textFilter chunks) _ rfl (by decide)

theorem appRound_reasoningOrder (env : Env) (res : LLMResult) (s : Session) :
    deltasThenDone "reasoning_delta" "reasoning_done"
      (((appRound env res s).1).filter
        (fun e => e.event == "reasoning_delta" || e.event == "reasoning_done")) = true := by
  cases res with
  | failure e => simp [appRound, sse_event, deltasThenDone]
  | stream chunks strErr =>
    cases strErr with
    | some e =>
      have : (appRound env (LLMResult.stream chunks (some e)) s).1 =
          (appAccumulate chunks).2 := by simp [appRound]
      rw [this]
      exact deltasThenDone_of_all _ _ _ (deltaEvs_reasoningFilter chunks)
    | none =>
      rw [appRound_events_stream, List.filter_append, List.filter_append, List.filter_append]
      have h3 : (if (appAccumulate chunks).1.full_content.isEmpty then []
          else [sse_event "text_done"
            (Json.obj [("content", Json.str (appAccumulate chunks).1.full_content)])]).filter
            (fun e => e.event == "reasoning_delta" || e.event == "reasoning_done") = [] := by
        split <;> simp [sse_event]
      have h4 : (if (appToolCallsList (appAccumulate chunks).1.tool_calls_dict).isEmpty then
            [sse_event "round_done" (Json.obj [])]
          else
            appExecEvs env (appToolCallsList (appAccumulate chunks).1.tool_calls_dict)
            ++ (match appExecExc env (appToolCallsList (appAccumulate chunks).1.tool_calls_dict) with
                | some _ => []
                | none => [sse_event "round_done" (Json.obj [])])).filter
            (fun e => e.event == "reasoning_delta" || e.event == "reasoning_done") = [] := by
        split
        · simp [sse_event]
        · rw [List.filter_append]
          have ha : (appExecEvs env (appToolCallsList (appAccumulate chunks).1.tool_calls_dict)).filter
              (fun e => e.event == "reasoning_delta" || e.event == "reasoning_done") = [] := by
            apply filterEv_eq_nil
            intro ev hev
            rcases appExecEvs_events env _ ev hev with h | h <;> simp [h]
          have hb : (match appExecExc env (appToolCallsList (appAccumulate chunks).1.tool_calls_dict) with
              | some _ => ([] : List SSEvent)
              | none => [sse_event "round_done" (Json.obj [])]).filter
              (fun (e : SSEvent) => e.event == "reasoning_delta" || e.event == "reasoning_done") = [] := by
            cases appExecExc env (appToolCallsList (appAccumulate chunks).1.tool_calls_dict) <;>
              simp [sse_event]
          rw [ha, hb]
          rfl
      rw [h3, h4]
      simp only [List.append_nil, List.nil_append]
      by_cases hc : (appAccumulate chunks).1.full_reasoning.isEmpty
      · simp only [hc, if_true, List.filter_nil, List.append_nil]
        exact deltasThenDone_of_all _ _ _ (deltaEvs_reasoningFilter chunks)
      · simp only [hc, Bool.false_eq_true, if_false, List.filter_cons, List.filter_nil]
        simp only [sse_event]
        exact deltasThenDone_append_done _ _ _ (deltaEvs_reasoningFilter chunks) _ rfl (by decide)

theorem appRound_roundDone (env : Env) (res : LLMResult) (s : Session)
    (h : (appRound env res s).2.2 = RoundResult.finishedNoTools ∨
         (appRound env res s).2.2 = RoundResult.continued) :
    ((appRound env res s).1).getLast? = some (sse_event "round_done" (Json.obj [])) ∧
    countEv (appRound env res s).1 "round_done" = 1 := by
  cases res with
  | failure e => rcases h with h | h <;> simp [appRound] at h
  | stream chunks strErr =>
    cases strErr with
    | some e => rcases h with h | h <;> simp [appRound] at h
    | none =>
      rw [appRound_result_stream] at h
      rw [appRound_events_stream]
      have z1 : countEv (appAccumulate chunks).2 "round_done" = 0 :=
        countEv_eq_zero _ _ (fun e he => by
          rcases appAccumulate_events chunks e he with h' | h' <;> simp [h'])
      have z2 : countEv (if (appAccumulate chunks).1.full_reasoning.isEmpty then []
          else [sse_event "reasoning_done"
            (Json.obj [("content", Json.str (appAccumulate chunks).1.full_reasoning)])]) "round_done" = 0 := by
        split <;> simp [countEv, sse_event]
      have z3 : countEv (if (appAccumulate chunks).1.full_content.isEmpty then []
          else [sse_event "text_done"
            (Json.obj [("content", Json.str (appAccumulate chunks).1.full_content)])]) "round_done" = 0 := by
        split <;> simp [countEv, sse_event]
      by_cases hc : (appToolCallsList (appAccumulate chunks).1.tool_calls_dict).isEmpty
      · simp only [hc, if_true]
        refine ⟨List.getLast?_concat _, ?_⟩
        rw [countEv_append, countEv_append, countEv_append, z1, z2, z3]
        simp [countEv, sse_event]
      · simp only [hc, Bool.false_eq_true, if_false] at h ⊢
        cases hx : appExecExc env (appToolCallsList (appAccumulate chunks).1.tool_calls_dict) with
        | some e2 => rw [hx] at h; rcases h with h | h <;> simp at h
        | none =>
          have hred : (match (none : Option String) with
              | some _ => ([] : List SSEvent)
              | none => [sse_event "round_done" (Json.obj [])]) =
              [sse_event "round_done" (Json.obj [])] := rfl
          rw [hred]
          have z4 : countEv (appExecEvs env
              (appToolCallsList (appAccumulate chunks).1.tool_calls_dict)) "round_done" = 0 :=
            countEv_eq_zero _ _ (fun e he => by
              rcases appExecEvs_events env _ e he with h' | h' <;> simp [h'])
          constructor
          · rw [← List.append_assoc]
            exact List.getLast?_concat _
          · rw [countEv_append, countEv_append, countEv_append, countEv_append, z1, z2, z3, z4]
            simp [countEv, sse_event]

theorem mem_ite_nil_singleton {c : Prop} [Decidable c] (ev x : SSEvent)
    (h : ev ∈ (if c then ([] : List SSEvent) else [x])) : ev = x := by
  split at h
  · simp at h
  · simpa using h

theorem appRound_no_done (env : Env) (res : LLMResult) (s : Session) :
    ∀ ev ∈ (appRound env res s).1, ¬ ev.event = "done" := by
  cases res with
  | failure e =>
    intro ev hev
    have : ev = sse_event "error" (Json.obj [("message", Json.str e)]) := by
      simpa [appRound] using hev
    subst this
    simp [sse_event]
  | stream chunks strErr =>
    cases strErr with
    | some e =>
      intro ev hev
      have hev2 : ev ∈ (appAccumulate chunks).2 := by simpa [appRound] using hev
      rcases appAccumulate_events chunks ev hev2 with h' | h' <;> simp [h']
    | none =>
      rw [appRound_events_stream]
      intro ev hev
      simp only [List.append_assoc, List.mem_append] at hev
      rcases hev with h1 | h2 | h3 | h4
      · rcases appAccumulate_events chunks ev h1 with h' | h' <;> simp [h']
      · have := mem_ite_nil_singleton ev _ h2
        subst this
        simp [sse_event]
      · have := mem_ite_nil_singleton ev _ h3
        subst this
        simp [sse_event]
      · revert h4
        split
        · intro h4
          have : ev = sse_event "round_done" (Json.obj []) := by simpa using h4
          subst this
          simp [sse_event]
        · intro h4
          rcases List.mem_append.mp h4 with h5 | h6
          · rcases appExecEvs_events env _ ev h5 with h' | h' <;> simp [h']
          · revert h6
            split <;> intro h6
            · simp at h6
            · have : ev = sse_event "round_done" (Json.obj []) := by simpa using h6
              subst this
              simp [sse_event]

theorem appRounds_no_done (env : Env) : ∀ (n : Nat) (s : Session),
    ∀ ev ∈ (appRounds env n s).events, ¬ ev.event = "done" := by
  intro n
  induction n with
  | zero => intro s ev hev; simp [appRounds] at hev
  | succ n ih =>
    intro s ev hev
    rw [appRounds] at hev
    revert hev
    split <;> intro hev
    · rcases List.mem_append.mp hev with h1 | h2
      · exact appRound_no_done env _ s ev h1
      · exact ih _ ev h2
    all_goals exact appRound_no_done env _ s ev hev

theorem appRounds_returned_last (env : Env) : ∀ (n : Nat) (s : Session),
    (appRounds env n s).exitKind = LoopExit.returned →
    ∃ e, (appRounds env n s).events.getLast? =
      some (sse_event "error" (Json.obj [("message", Json.str e)])) := by
  intro n
  induction n with
  | zero => intro s h; simp [appRounds] at h
  | succ n ih =>
    intro s h
    rw [appRounds] at h ⊢
    revert h
    split <;> intro h
    · rename_i heq
      obtain ⟨e, he⟩ := ih _ h
      exact ⟨e, by simp [List.getLast?_append, he]⟩
    · simp at h
    · rename_i heq
      cases hres : env.llm s.msgs with
      | failure e2 =>
        exact ⟨e2, rfl⟩
      | stream chunks strErr =>
        rw [hres] at heq
        exfalso
        cases strErr with
        | some e2 => simp [appRound] at heq
        | none =>
          rw [appRound_result_stream] at heq
          revert heq
          split
          · intro heq; simp at heq
          · split <;> intro heq <;> simp at heq
    · simp at h
    · simp at h

/-- C9 (amended): per round, the emitted tool events form consecutive
`tool_start`/`tool_done` pairs over the same call id (every start precedes its
done), every `text_delta`/`reasoning_delta` precedes its round's
`text_done`/`reasoning_done`, and a round that completes (with or without tool
calls) emits `round_done` exactly once, as its last event (hence after all its
tool events). Per turn, `done` is terminal and emitted exactly once when the
turn finishes normally; a turn aborted by a request failure ends with a single
`error` event and no `done`, and a turn aborted by an exception emits no
`done`. -/
theorem c9_event_ordering :
    (∀ (env : Env) (res : LLMResult) (s : Session),
      toolPairsOK (((appRound env res s).1).filter isToolEv) = true ∧
      deltasThenDone "text_delta" "text_done"
        (((appRound env res s).1).filter
          (fun e => e.event == "text_delta" || e.event == "text_done")) = true ∧
      deltasThenDone "reasoning_delta" "reasoning_done"
        (((appRound env res s).1).filter
          (fun e => e.event == "reasoning_delta" || e.event == "reasoning_done")) = true ∧
      (((appRound env res s).2.2 = RoundResult.finishedNoTools ∨
        (appRound env res s).2.2 = RoundResult.continued) →
        ((appRound env res s).1).getLast? = some (sse_event "round_done" (Json.obj [])) ∧
        countEv (appRound env res s).1 "round_done" = 1)) ∧
    (∀ (env : Env) (s : Session),
      (∀ e, (appGenerate env s).outcome = Outcome.raised e →
        countEv (appGenerate env s).events "done" = 0) ∧
      ((appGenerate env s).outcome = Outcome.finished →
        (countEv (appGenerate env s).events "done" = 1 ∧
          (appGenerate env s).events.getLast? =
            some (sse_event "done" (Json.obj [("reasoning_enabled", Json.bool s.reasoning)]))) ∨
        (countEv (appGenerate env s).events "done" = 0 ∧
          ∃ e, (appGenerate env s).events.getLast? =
            some (sse_event "error" (Json.obj [("message", Json.str e)]))))) := by
  constructor
  · intro env res s
    exact ⟨appRound_toolPairs env res s, appRound_textOrder env res s,
      appRound_reasoningOrder env res s, appRound_roundDone env res s⟩
  · intro env s
    constructor
    · intro e h
      simp only [appGenerate] at h ⊢
      revert h
      split <;> intro h
      · simp at h
      · simp at h
      · exact countEv_eq_zero _ _ (appRounds_no_done env 10 s)
    · intro h
      simp only [appGenerate] at h ⊢
      revert h
      split <;> intro h
      · left
        constructor
        · rw [countEv_append, countEv_eq_zero _ _ (appRounds_no_done env 10 s)]
          simp [countEv, sse_event]
        · exact List.getLast?_concat _
      · right
        rename_i heq
        exact ⟨countEv_eq_zero _ _ (appRounds_no_done env 10 s),
          appRounds_returned_last env 10 s heq⟩
      · simp at h

/-- An environment whose request establishment always fails. -/
def failEnv : Env :=
  { parse := fun _ => Except.error "bad",
    fns := [],
    displayNames := [],
    llm := fun _ => LLMResult.failure "no network" }

/-- Witness for C9 (amended) at concrete inputs: an aborted turn emits no
`done`, and a concrete completed round ends in `round_done` with well-paired
tool events. -/
theorem c9_witness :
    countEv (appGenerate streamErrEnv emptySession).events "done" = 0 ∧
    ((appRound advEnv (LLMResult.stream [advChunk] none) emptySession).1).getLast? =
      some (sse_event "round_done" (Json.obj [])) ∧
    toolPairsOK (((appRound advEnv (LLMResult.stream [advChunk] none) emptySession).1).filter
      isToolEv) = true :=
  ⟨(c9_event_ordering.2 streamErrEnv emptySession).1 "boom" rfl,
   ((c9_event_ordering.1 advEnv (LLMResult.stream [advChunk] none) emptySession).2.2.2
      (Or.inr rfl)).1,
   (c9_event_ordering.1 advEnv (LLMResult.stream [advChunk] none) emptySession).1⟩

/-- Counterexample for C9 as stated: a turn whose request establishment fails
emits a single `error` event and zero `done` events — `done` is not emitted
exactly once per turn. -/
theorem c9_counterexample :
    (appGenerate failEnv emptySession).events =
      [sse_event "error" (Json.obj [("message", Json.str "no network")])] ∧
    countEv (appGenerate failEnv emptySession).events "done" = 0 :=
  ⟨rfl, rfl⟩

end Hoster
